import Mathlib

/-!
Verification of the module-discovery / handler-aggregation pipeline and the
structural data parser of the `an_website` repository.

The Lean definitions below are a shallow embedding of the Python source:

* `an_website/utils/data_parsing.py` — the structural parser (`parse`,
  `_parse_str`, `_parse_bool`, `_parse_int`, `_parse_float`, `_parse_list`,
  `_parse_class`),
* `an_website/utils/utils.py` — `str_to_bool`, the `PageInfo` / `ModuleInfo`
  dataclasses and the `Handler` tuples,
* `an_website/main.py` — `get_module_infos`, `sort_module_infos`,
  `get_all_handlers`.

Modelling conventions:

* Python values are the inductive `PyVal`.  Python `float` is modelled as a
  rational number (`Rat`); the claims under study never depend on binary
  rounding, infinities or NaN.
* Python's global `random.choice((True, False))` (used by `str_to_bool` for
  the inputs `maybe` / `idc`) is modelled by an explicit stream of coin flips
  `s : Nat → Bool` together with a cursor `k : Nat`; drawing reads `s k` and
  advances the cursor.  The parser returns the advanced cursor.
* The recursion of `parse` is fuel-indexed.  In Python the recursion descends
  through the type annotation and, for containers, through the data, so on
  actual runs it terminates; any theorem below quantifies over, or
  instantiates, the fuel explicitly.
* Error values (`raise ValueError(...)` / `TypeError`) are `Except.error`
  with the message of the source; the `repr` quoting of interpolated values
  is not reproduced (messages carry the plain rendering of the value).
-/

/-- A Python value as the parser sees it: the JSON-like scalars, lists,
string-keyed dicts (request-argument maps), and constructed class instances
(`obj` records the class name and the field bindings made by `__init__`). -/
inductive PyVal where
  | none
  | bool (b : Bool)
  | int (n : Int)
  | float (q : Rat)
  | str (s : String)
  | list (xs : List PyVal)
  | dict (entries : List (String × PyVal))
  | obj (cls : String) (fields : List (String × PyVal))

/-- Rendering used inside error messages, standing in for Python's `str()` /
`repr()` of the offending value (quoting of nested strings is not
reproduced). -/
def pyStrOf : PyVal → String
  | .none => "None"
  | .bool true => "True"
  | .bool false => "False"
  | .int n => toString n
  | .float q => toString q
  | .str s => s
  | .list _ => "[...]"
  | .dict _ => "{...}"
  | .obj c _ => "<" ++ c ++ " instance>"

/-- Digit value of a character in bases up to 16, as `int(str, base)`
accepts. -/
def pyDigitVal (base : Nat) (c : Char) : Option Nat :=
  let v : Option Nat :=
    if '0' ≤ c ∧ c ≤ '9' then some (c.toNat - '0'.toNat)
    else if 'a' ≤ c ∧ c ≤ 'f' then some (c.toNat - 'a'.toNat + 10)
    else if 'A' ≤ c ∧ c ≤ 'F' then some (c.toNat - 'A'.toNat + 10)
    else Option.none
  match v with
  | some d => if d < base then some d else Option.none
  | Option.none => Option.none

/-- Digit run accumulator: digits of `base`, a single `_` allowed between two
digits (Python integer-literal underscore rule). -/
def pyDigitsGo (base : Nat) (acc : Nat) : List Char → Option Nat
  | [] => some acc
  | '_' :: c :: rest =>
    match pyDigitVal base c with
    | some d => pyDigitsGo base (acc * base + d) rest
    | Option.none => Option.none
  | ['_'] => Option.none
  | c :: rest =>
    match pyDigitVal base c with
    | some d => pyDigitsGo base (acc * base + d) rest
    | Option.none => Option.none

/-- A non-empty digit run in `base` (underscores between digits allowed). -/
def pyDigits (base : Nat) : List Char → Option Nat
  | [] => Option.none
  | c :: rest =>
    match pyDigitVal base c with
    | some d => pyDigitsGo base d rest
    | Option.none => Option.none

/-- Digit run that may start with one underscore — the form allowed directly
after a `0x` / `0o` / `0b` prefix. -/
def pyPrefixedDigits (base : Nat) : List Char → Option Nat
  | '_' :: rest => pyDigits base rest
  | cs => pyDigits base cs

/-- Whitespace stripped by `int(...)` around the literal. -/
def pyIsSpace (c : Char) : Bool :=
  c = ' ' || c = '\t' || c = '\n' || c = '\r'

/-- Body of a base-0 integer literal (after sign): `0x` / `0o` / `0b`
prefixed runs, a run of zeros, or a decimal run without leading zero. -/
def pyIntBody0 : List Char → Option Nat
  | '0' :: x :: rest =>
    if x = 'x' ∨ x = 'X' then pyPrefixedDigits 16 rest
    else if x = 'o' ∨ x = 'O' then pyPrefixedDigits 8 rest
    else if x = 'b' ∨ x = 'B' then pyPrefixedDigits 2 rest
    else
      match pyDigits 10 ('0' :: x :: rest) with
      | some n => if n = 0 then some 0 else Option.none
      | Option.none => Option.none
  | ['0'] => some 0
  | cs => match cs with
    | c :: _ =>
      if c = '0' then Option.none
      else pyDigits 10 cs
    | [] => Option.none

/-- `int(s, base=0)`: strip whitespace, optional sign, prefix-determined
base (`0x`/`0o`/`0b`), decimal otherwise with no leading zeros. -/
def pyIntBase0 (s : String) : Option Int :=
  let cs := (s.toList.dropWhile pyIsSpace).reverse.dropWhile pyIsSpace |>.reverse
  match cs with
  | '+' :: rest => (pyIntBody0 rest).map Int.ofNat
  | '-' :: rest => (pyIntBody0 rest).map (fun n => -(Int.ofNat n))
  | rest => (pyIntBody0 rest).map Int.ofNat

/-- `int(s)` (base 10): strip whitespace, optional sign, decimal digits
(leading zeros allowed in base 10). -/
def pyIntBase10 (s : String) : Option Int :=
  let cs := (s.toList.dropWhile pyIsSpace).reverse.dropWhile pyIsSpace |>.reverse
  match cs with
  | '+' :: rest => (pyDigits 10 rest).map Int.ofNat
  | '-' :: rest => (pyDigits 10 rest).map (fun n => -(Int.ofNat n))
  | rest => (pyDigits 10 rest).map Int.ofNat

/-- Numeric view of a value, for Python's cross-type `==` between `bool`,
`int` and `float` (`data in {0, 1}` in `_parse_bool`). -/
def pyNumVal : PyVal → Option Rat
  | .bool true => some 1
  | .bool false => some 0
  | .int n => some (n : Rat)
  | .float q => some q
  | _ => Option.none

/-- Python `data == n` for an integer literal `n`, as used by the set
membership test `data in {0, 1}`. -/
def pyEqInt (v : PyVal) (n : Int) : Bool :=
  match pyNumVal v with
  | some q => q = (n : Rat)
  | Option.none => false

example : pyIntBase0 "7" = some 7 := by decide
example : pyIntBase0 " -0x10 " = some (-16) := by decide
example : pyIntBase0 "x" = Option.none := by decide
example : pyIntBase0 "010" = Option.none := by decide
example : pyIntBase10 "010" = some 10 := by decide
example : pyIntBase0 "1_000" = some 1000 := by decide
example : pyIntBase10 "0x10" = Option.none := by decide

/-- `val.lower()`: ASCII lowercasing character by character (the truth
vocabulary is ASCII, so the Unicode cases of `str.lower` are moot). -/
def pyLower (s : String) : String := ⟨s.data.map Char.toLower⟩

/-- `utils.str_to_bool`: truth-vocabulary lookup on the lowercased string;
`maybe` / `idc` draw one coin flip from the stream (Python:
`random.choice((True, False))`); otherwise the `default` or a
`ValueError`. -/
def str_to_bool (val : String) (default : Option Bool) (s : Nat → Bool)
    (k : Nat) : Except String Bool × Nat :=
  let v := pyLower val
  if v ∈ ["sure", "y", "yes", "t", "true", "on", "1"] then (.ok true, k)
  else if v ∈ ["nope", "n", "no", "f", "false", "off", "0"] then (.ok false, k)
  else if v ∈ ["maybe", "idc"] then (.ok (s k), k + 1)
  else
    match default with
    | Option.none => (.error ("invalid truth value " ++ v), k)
    | some d => (.ok d, k)

/-- `data_parsing._parse_str`: native strings pass; non-strict stringifies;
strict fails. -/
def _parse_str (data : PyVal) (strict : Bool) : Except String PyVal :=
  match data with
  | .str v => .ok (.str v)
  | _ =>
    if strict then .error (pyStrOf data ++ " is not str.")
    else .ok (.str (pyStrOf data))

/-- `data_parsing._parse_bool`: native bools pass; strict fails; values
`== 0` or `== 1` coerce; strings go through `str_to_bool` (no default, so
unknown strings raise); anything else fails.  The stream/cursor pair models
the random choice inside `str_to_bool`. -/
def _parse_bool (data : PyVal) (strict : Bool) (s : Nat → Bool) (k : Nat) :
    Except String PyVal × Nat :=
  match data with
  | .bool b => (.ok (.bool b), k)
  | _ =>
    if strict then (.error (pyStrOf data ++ " is not bool."), k)
    else if pyEqInt data 0 || pyEqInt data 1 then
      (.ok (.bool (pyEqInt data 1)), k)
    else
      match data with
      | .str v =>
        let r := str_to_bool v Option.none s k
        match r.1 with
        | .ok b => (.ok (.bool b), r.2)
        | .error e => (.error e, r.2)
      | _ => (.error ("Cannot parse " ++ pyStrOf data ++ " into bool."), k)

/-- `data_parsing._parse_int`.  `isinstance(data, int)` also accepts Python
bools (a subclass of `int`), which therefore pass through unchanged even in
strict mode; floats with zero fractional part truncate; strings use
`int(data, base=0)`. -/
def _parse_int (data : PyVal) (strict : Bool) : Except String PyVal :=
  match data with
  | .int n => .ok (.int n)
  | .bool b => .ok (.bool b)
  | .float q =>
    if q.den = 1 then .ok (.int q.num)
    else if strict then .error (pyStrOf data ++ " is not a number.")
    else .error ("Cannot parse " ++ pyStrOf data ++ " into int.")
  | .str v =>
    if strict then .error (pyStrOf data ++ " is not a number.")
    else
      match pyIntBase0 v with
      | some n => .ok (.int n)
      | Option.none =>
        .error ("invalid literal for int() with base 0: " ++ v)
  | _ =>
    if strict then .error (pyStrOf data ++ " is not a number.")
    else .error ("Cannot parse " ++ pyStrOf data ++ " into int.")

/-- `data_parsing._parse_float`.  Bools hit the `isinstance(data, int)`
branch and widen via `float(data)`; the string branch returns `int(data)` —
an `int`, truncating the notation to base-10 integer literals (the latent
defect noted in the spec); its failure is `int()`'s `ValueError`. -/
def _parse_float (data : PyVal) (strict : Bool) : Except String PyVal :=
  match data with
  | .float q => .ok (.float q)
  | .int n => .ok (.float (n : Rat))
  | .bool b => .ok (.float (if b then 1 else 0))
  | .str v =>
    if strict then .error (pyStrOf data ++ " is not a number.")
    else
      match pyIntBase10 v with
      | some n => .ok (.int n)
      | Option.none =>
        .error ("invalid literal for int() with base 10: " ++ v)
  | _ =>
    if strict then .error (pyStrOf data ++ " is not a number.")
    else .error ("Cannot parse " ++ pyStrOf data ++ " into int.")

/-- Kind of a constructor parameter, after `inspect.Parameter.kind`. -/
inductive PyKind where
  | posOnly
  | posOrKw
  | varPos
  | kwOnly
  | varKw
deriving DecidableEq, Repr

mutual

/-- A target shape (the `type_` argument of `parse`): the scalar builtins,
`list[T]`, a `types.UnionType`, or a class with an `__init__` parameter
list.  String annotations of the scalar builtins behave like the resolved
types in the source (`type_ in {int, "int"}` etc.), so they need no separate
constructor. -/
inductive PyTy where
  | bool
  | str
  | int
  | float
  | list (elem : PyTy)
  | union (members : List UTy)
  | cls (name : String) (params : List PyParam)

/-- A member of a union as `typing.get_args` returns it: `NoneType` or a
type. -/
inductive UTy where
  | noneType
  | ty (t : PyTy)

/-- One `__init__` parameter (the leading `self` is omitted; the source loop
skips it): name, kind, annotation (`Parameter.empty` when absent) and
default (`Option.none` when `Parameter.empty`). -/
inductive PyParam where
  | mk (name : String) (kind : PyKind) (ann : PyAnn) (dflt : Option PyVal)

/-- A parameter annotation: absent or a type. -/
inductive PyAnn where
  | empty
  | ty (t : PyTy)

end

/-- Is this union member the *value* `None`?  The source tests
`None not in possible`, but `typing.get_args` yields the *class*
`NoneType`, and no class compares equal to the value `None` — so this test
is false for every member.  Keeping it as a function preserves the shape of
the source's dead branch. -/
def isNoneValue : UTy → Bool := fun _ => false

/-- `isinstance(data, member)` for a single union member.  A parameterized
generic member makes `isinstance` raise `TypeError`; nested unions are
flattened away by Python at construction and cannot occur. -/
def isInstanceM (v : PyVal) : UTy → Except String Bool
  | .noneType =>
    .ok (match v with | .none => true | _ => false)
  | .ty .bool => .ok (match v with | .bool _ => true | _ => false)
  | .ty .int =>
    .ok (match v with | .int _ => true | .bool _ => true | _ => false)
  | .ty .float => .ok (match v with | .float _ => true | _ => false)
  | .ty .str => .ok (match v with | .str _ => true | _ => false)
  | .ty (.list _) =>
    .error "isinstance() argument 2 cannot be a parameterized generic"
  | .ty (.union _) =>
    .error "isinstance() argument 2 cannot be a parameterized generic"
  | .ty (.cls c _) =>
    .ok (match v with | .obj c2 _ => c2 = c | _ => false)

/-- `isinstance(data, type_)` for a union: members are tried left to right,
stopping at the first success. -/
def isInstanceUnion (v : PyVal) : List UTy → Except String Bool
  | [] => .ok false
  | m :: ms =>
    match isInstanceM v m with
    | .error e => .error e
    | .ok true => .ok true
    | .ok false => isInstanceUnion v ms

/-- The parameter list of builtin `list.__init__` (`self, *args, **kwargs`),
reached when a `list[T]` shape meets dict data and falls through to the
class branch of `parse`. -/
def listInitParams : List PyParam :=
  [.mk "args" .varPos .empty Option.none,
   .mk "kwargs" .varKw .empty Option.none]

/-- Remove the first entry with the given key (used when call binding
consumes a keyword argument). -/
def removeKey (nm : String) : List (String × PyVal) → List (String × PyVal)
  | [] => []
  | (n, v) :: rest =>
    if n = nm then rest else (n, v) :: removeKey nm rest

/-- Python call binding `type_(*args, **kwargs)` against the `__init__`
parameter list (without `self`): positional args fill positional-capable
parameters in order, keyword args bind by name, `*args` / `**kwargs`
collect the rest; the usual `TypeError`s otherwise.  Returns the field
bindings of the constructed instance. -/
def bindParams : List PyParam → List PyVal → List (String × PyVal) →
    Except String (List (String × PyVal))
  | [], [], [] => .ok []
  | [], [], (nm, _) :: _ =>
    .error ("TypeError: unexpected keyword argument " ++ nm)
  | [], _ :: _, _ => .error "TypeError: too many positional arguments"
  | .mk nm kind _ dflt :: ps, args, kwargs =>
    match kind with
    | .posOnly =>
      match args with
      | a :: rest => (bindParams ps rest kwargs).map (fun fs => (nm, a) :: fs)
      | [] =>
        match dflt with
        | some d => (bindParams ps [] kwargs).map (fun fs => (nm, d) :: fs)
        | Option.none =>
          .error ("TypeError: missing required positional argument " ++ nm)
    | .posOrKw =>
      match args with
      | a :: rest =>
        if (kwargs.lookup nm).isSome then
          .error ("TypeError: multiple values for argument " ++ nm)
        else (bindParams ps rest kwargs).map (fun fs => (nm, a) :: fs)
      | [] =>
        match kwargs.lookup nm with
        | some v =>
          (bindParams ps [] (removeKey nm kwargs)).map (fun fs => (nm, v) :: fs)
        | Option.none =>
          match dflt with
          | some d => (bindParams ps [] kwargs).map (fun fs => (nm, d) :: fs)
          | Option.none =>
            .error ("TypeError: missing required positional argument " ++ nm)
    | .varPos =>
      (bindParams ps [] kwargs).map (fun fs => (nm, .list args) :: fs)
    | .kwOnly =>
      match kwargs.lookup nm with
      | some v =>
        (bindParams ps args (removeKey nm kwargs)).map
          (fun fs => (nm, v) :: fs)
      | Option.none =>
        match dflt with
        | some d => (bindParams ps args kwargs).map (fun fs => (nm, d) :: fs)
        | Option.none =>
          .error ("TypeError: missing required keyword-only argument " ++ nm)
    | .varKw =>
      (bindParams ps args []).map (fun fs => (nm, .dict kwargs) :: fs)

/-- Type of the recursive reference handed to the helpers of `parse`
(strictness is captured inside it, as the source always forwards the same
`strict` flag). -/
def PyRec : Type :=
  PyTy → PyVal → (Nat → Bool) → Nat → Except String PyVal × Nat

/-- `data_parsing._parse_list` body: each element of the raw list is parsed
as the element shape; the first failure aborts the whole comprehension, as
the exception propagates out of `[parse(args[0], spam, ...) for spam in
data]`. -/
def parseListH (pr : PyRec) (elem : PyTy) :
    List PyVal → (Nat → Bool) → Nat → Except String (List PyVal) × Nat
  | [], _, k => (.ok [], k)
  | x :: xs, s, k =>
    let r := pr elem x s k
    match r.1 with
    | .error e => (.error e, r.2)
    | .ok v =>
      let rr := parseListH pr elem xs s r.2
      match rr.1 with
      | .error e => (.error e, rr.2)
      | .ok vs => (.ok (v :: vs), rr.2)

/-- The parameter loop of `data_parsing._parse_class`.  `inPos` is the
source's `in_positional` flag: it starts `False` and flips to `True` at the
first `VAR_KEYWORD` / `KEYWORD_ONLY` parameter — note that the flag set at
a keyword-only marker routes values into the *positional* `args`
accumulator, and parameters before the marker into `kwargs` (the inversion
verified below).  Missing keys use the default or fail; unannotated
parameters pass the raw value in non-strict mode; annotated values are
parsed recursively. -/
def parseFieldsH (pr : PyRec) :
    List PyParam → List (String × PyVal) → Bool → Bool → List PyVal →
    List (String × PyVal) → (Nat → Bool) → Nat →
    Except String (List PyVal × List (String × PyVal)) × Nat
  | [], _, _, _, args, kwargs, _, k => (.ok (args, kwargs), k)
  | .mk nm kind ann dflt :: ps, entries, strict, inPos, args, kwargs, s, k =>
    let inPos := inPos || (kind = .varKw || kind = .kwOnly)
    let add := fun (v : PyVal) =>
      if inPos then (args ++ [v], kwargs) else (args, kwargs ++ [(nm, v)])
    match entries.lookup nm with
    | Option.none =>
      match dflt with
      | Option.none => (.error ("Missing required argument " ++ nm), k)
      | some d =>
        parseFieldsH pr ps entries strict inPos (add d).1 (add d).2 s k
    | some value =>
      match ann with
      | .empty =>
        if strict then (.error ("Missing type annotation for " ++ nm), k)
        else parseFieldsH pr ps entries strict inPos (add value).1
          (add value).2 s k
      | .ty t =>
        let r := pr t value s k
        match r.1 with
        | .error e => (.error e, r.2)
        | .ok v =>
          parseFieldsH pr ps entries strict inPos (add v).1 (add v).2 s r.2

/-- `data_parsing._parse_class`: run the parameter loop, then call the
constructor `type_(*args, **kwargs)`. -/
def parseClassH (pr : PyRec) (clsName : String) (ps : List PyParam)
    (entries : List (String × PyVal)) (strict : Bool) (s : Nat → Bool)
    (k : Nat) : Except String PyVal × Nat :=
  let r := parseFieldsH pr ps entries strict false [] [] s k
  match r.1 with
  | .error e => (.error e, r.2)
  | .ok p =>
    match bindParams ps p.1 p.2 with
    | .error e => (.error e, r.2)
    | .ok fields => (.ok (.obj clsName fields), r.2)

/-- The non-union dispatch chain of `data_parsing.parse`, in source order:
`list[T]` on list data, then the four scalars, then the class branch
(`hasattr(type_, "__init__") and isinstance(data, dict)`), else the final
`ValueError`.  A `list[T]` shape on dict data also reaches the class branch
(every type has `__init__`), grinding through `list.__init__`'s
signature. -/
def parseCore (pr : PyRec) (ty : PyTy) (data : PyVal) (strict : Bool)
    (s : Nat → Bool) (k : Nat) : Except String PyVal × Nat :=
  match ty with
  | .list elem =>
    match data with
    | .list xs =>
      let r := parseListH pr elem xs s k
      match r.1 with
      | .error e => (.error e, r.2)
      | .ok vs => (.ok (.list vs), r.2)
    | .dict entries => parseClassH pr "list" listInitParams entries strict s k
    | _ =>
      (.error ("Unable to parse " ++ pyStrOf data ++ " into list"), k)
  | .bool => _parse_bool data strict s k
  | .str => (_parse_str data strict, k)
  | .int => (_parse_int data strict, k)
  | .float => (_parse_float data strict, k)
  | .cls name ps =>
    match data with
    | .dict entries => parseClassH pr name ps entries strict s k
    | _ =>
      (.error ("Unable to parse " ++ pyStrOf data ++ " into " ++ name), k)
  | .union _ =>
    (.error ("Unable to parse " ++ pyStrOf data ++ " into union"), k)

/-- The union branch of `data_parsing.parse`: an instance of the union
passes through; otherwise the source keeps only a two-member union
containing the value `None` — a test that never succeeds, because
`typing.get_args` yields the class `NoneType` (see `isNoneValue`) — so
every non-instance union raises; the optional-stripping branch below it is
dead code, kept for faithfulness. -/
def parseUnion (pr : PyRec) (members : List UTy) (data : PyVal)
    (strict : Bool) (s : Nat → Bool) (k : Nat) : Except String PyVal × Nat :=
  match isInstanceUnion data members with
  | .error e => (.error e, k)
  | .ok true => (.ok data, k)
  | .ok false =>
    if members.length ≠ 2 ∨ ¬ members.any isNoneValue then
      (.error "Cannot parse all Unions, only optionals.", k)
    else
      match (members.filter (fun m => ¬ isNoneValue m)).head? with
      | some (.ty t) => parseCore pr t data strict s k
      | some .noneType =>
        (.error ("Unable to parse " ++ pyStrOf data ++ " into NoneType"), k)
      | Option.none => (.error "list index out of range", k)

/-- `data_parsing.parse`, fuel-indexed: union shapes go through
`parseUnion`, everything else through the `parseCore` dispatch chain. -/
def parse (fuel : Nat) (ty : PyTy) (data : PyVal) (strict : Bool)
    (s : Nat → Bool) (k : Nat) : Except String PyVal × Nat :=
  match fuel with
  | 0 => (.error "recursion limit exceeded", k)
  | Nat.succ n =>
    let pr : PyRec := fun t v s k => parse n t v strict s k
    match ty with
    | .union members => parseUnion pr members data strict s k
    | _ => parseCore pr ty data strict s k

example :
    (parse 3 .int (.str "7") false (fun _ => false) 0).1 = .ok (.int 7) :=
  rfl

example :
    (parse 3 .bool (.str "maybe") false (fun _ => true) 0)
      = (.ok (.bool true), 1) := rfl

example :
    (parse 3 (.union [.ty .int, .noneType]) (.str "5") false
        (fun _ => false) 0).1
      = .error "Cannot parse all Unions, only optionals." := rfl

/-- A Tornado handler class as the routing rules carry it: its name and
whether it subclasses the site's `BaseRequestHandler` (the marker the
builder tests with `issubclass`). -/
structure HandlerClass where
  clsName : String
  isBaseRequestHandler : Bool
deriving DecidableEq, Repr

/-- `tornado.web.RedirectHandler` — a framework builtin, not a
`BaseRequestHandler`. -/
def RedirectHandler : HandlerClass := ⟨"RedirectHandler", false⟩

/-- A routing rule (`utils.utils.Handler`): `(pattern, class)`,
`(pattern, class, settings)` or `(pattern, class, settings, name)`.
Settings dicts are mutable Python objects, so a rule holds a *reference*
(an index into the dict store) rather than the dict itself. -/
inductive Handler where
  | h2 (pattern : String) (cls : HandlerClass)
  | h3 (pattern : String) (cls : HandlerClass) (settings : Nat)
  | h4 (pattern : String) (cls : HandlerClass) (settings : Nat) (nm : String)
deriving DecidableEq, Repr

/-- `utils.utils.PageInfo` (frozen dataclass). -/
structure PageInfo where
  name : String
  description : String
  path : Option String := Option.none
  keywords : List String := []
deriving DecidableEq, Repr

/-- `utils.utils.ModuleInfo` (frozen dataclass extending `PageInfo`); the
field order is the dataclass comparison order. -/
structure ModuleInfo where
  name : String
  description : String
  path : Option String := Option.none
  keywords : List String := []
  handlers : List Handler := []
  sub_pages : List PageInfo := []
  aliases : List String := []
deriving DecidableEq, Repr

/-- Python `<` on strings: lexicographic on code points (via the character
list, which reduces in the kernel, unlike `String.decidableLT`). -/
def listLtChar : List Char → List Char → Bool
  | _, [] => false
  | [], _ :: _ => true
  | a :: as, b :: bs => if a ≠ b then decide (a < b) else listLtChar as bs

/-- Python `a < b` on strings. -/
def pyStrLt (a b : String) : Bool := listLtChar a.data b.data

/-- Python `<` on tuples of strings (element-wise, shorter prefix first). -/
def listLtStr : List String → List String → Bool
  | _, [] => false
  | [], _ :: _ => true
  | a :: as, b :: bs => if a ≠ b then pyStrLt a b else listLtStr as bs

/-- Comparison tail once `name`, `description` and `path` all agree:
`keywords` compare as string tuples; beyond that the dataclass order
reaches the `handlers` / `sub_pages` / `aliases` tuples, whose comparison
orders class objects and settings dicts — unorderable in Python
(`TypeError`) resp. dependent on heap identity — modelled as an error.
Every theorem below stays in the region decided by the first three
fields. -/
def pyLtTail (a b : ModuleInfo) : Except Unit Bool :=
  if a.keywords ≠ b.keywords then .ok (listLtStr a.keywords b.keywords)
  else .error ()

/-- `ModuleInfo.__lt__`: the `order=True` dataclass comparison, comparing
the field tuple `(name, description, path, keywords, ...)`
lexicographically.  Comparing a present path against an absent one raises
`TypeError` in Python (`None < str`), modelled as an error. -/
def pyLt (a b : ModuleInfo) : Except Unit Bool :=
  if a.name ≠ b.name then .ok (pyStrLt a.name b.name)
  else if a.description ≠ b.description then
    .ok (pyStrLt a.description b.description)
  else
    match a.path, b.path with
    | Option.none, Option.none => pyLtTail a b
    | some p, some q => if p ≠ q then .ok (pyStrLt p q) else pyLtTail a b
    | _, _ => .error ()

/-- `__lt__` as the Bool the sort consumes; the error region (where CPython
would raise) defaults to `false` and is excluded by the hypotheses of the
theorems that sort. -/
def pyLtB (a b : ModuleInfo) : Bool := ((pyLt a b).toOption).getD false

/-- Stable insertion of `a` into a sorted list: walk past every `b` with
`b < a`, insert before the first `b` with `¬ b < a` — the placement a
stable sort driven by `__lt__` gives (Python's `list.sort` is stable). -/
def pyInsert (a : ModuleInfo) : List ModuleInfo → List ModuleInfo
  | [] => [a]
  | b :: l => if pyLtB b a then b :: pyInsert a l else a :: b :: l

/-- `module_infos.sort()`: a stable comparison sort by `__lt__`, modelled
as stable insertion sort (extensionally equal to timsort for the
comparisons the theorems admit). -/
def pySort : List ModuleInfo → List ModuleInfo
  | [] => []
  | a :: l => pyInsert a (pySort l)

/-- `main.sort_module_infos`: sort, then move the first descriptor whose
`path == "/"` to index 0 (`insert(0, pop(i))`). -/
def sort_module_infos (l : List ModuleInfo) : List ModuleInfo :=
  let sorted := pySort l
  match sorted.findIdx? (fun m => m.path = some "/") with
  | some i =>
    match sorted.get? i with
    | some m => m :: sorted.eraseIdx i
    | Option.none => sorted
  | Option.none => sorted

/-- `main.IGNORED_MODULES` (the built-in block list). -/
def IGNORED_MODULES : List String :=
  ["patches.*", "static.*", "templates.*", "utils.utils",
   "utils.static_file_handling", "swapped_words.sw_config_file",
   "quotes.quotes_img", "quotes.share_page", "backdoor.backdoor_client"]

/-- What invoking a unit's `get_module_info()` does. -/
inductive InvokeResult where
  | raises (exc : String)
  | returnsInfo (mi : ModuleInfo)
  | returnsOther
deriving Repr

/-- A candidate `.py` file inside a module directory, described by what the
loader's reflection would observe: whether `get_module_info` exists, the
string in `__annotations__["return"]` (empty when absent; annotations are
strings under `from __future__ import annotations`), and what invoking it
does. -/
structure ModuleFile where
  fileName : String
  hasGetModuleInfo : Bool
  returnAnn : String
  invoke : InvokeResult

/-- One entry of `os.listdir(DIR)`: a name, whether it is a directory, and
the files inside it. -/
structure DirEntry where
  dirName : String
  isDir : Bool
  files : List ModuleFile

/-- The accumulator of one discovery pass (`module_infos`,
`loaded_modules`, `errors` in the source). -/
structure LoadResult where
  loadedModules : List String
  moduleInfos : List ModuleInfo
  errors : List String
deriving Repr

/-- Outcome of `main.get_module_infos`: an uncaught exception from a unit
(`crashed`), the dev-mode `sys.exit` with the concatenated errors
(`devExit`), or the normal return (`completed`). -/
inductive ScanOutcome where
  | crashed (exc : String)
  | devExit (message : String)
  | completed (result : LoadResult)

/-- Python `str.endswith`, via the character list (reduces in the
kernel, unlike `String.endsWith`). -/
def pyEndsWith (s suf : String) : Bool := suf.data.isSuffixOf s.data

/-- Python `str.startswith`, via the character list. -/
def pyStartsWith (s pre : String) : Bool := pre.data.isPrefixOf s.data

/-- The wrong-return-type error message of the loader (`repr` quotes
dropped, as everywhere). -/
def wrongTypeMsg (dir dirName fileName moduleName : String) : String :=
  "get_module_info in " ++ dir ++ "/" ++ dirName ++ "/" ++ fileName ++
    " does not return ModuleInfo. Please add/fix the return type or add " ++
    dirName ++ ".* or " ++ moduleName ++ " to IGNORED_MODULES."

/-- The missing-entry-point error message of the loader. -/
def noMethodMsg (dir dirName fileName moduleName : String) : String :=
  dir ++ "/" ++ dirName ++ "/" ++ fileName ++
    " has no get_module_info method. Please add the method or add " ++
    dirName ++ ".* or " ++ moduleName ++ " to IGNORED_MODULES."

/-- The inner loop body of `get_module_infos` for one candidate file:
filters (`.py` suffix, ignore list, underscore prefix), then the entry
point checks.  The declared-return-type check short-circuits the call, so a
unit with a wrong annotation is never invoked; a unit whose invocation
raises propagates the exception (`Except.error`), as the source has no
`try` around the call.  The import-latency warning is log-only and not
modelled. -/
def processFile (dir dirName : String) (ignored : List String)
    (acc : LoadResult) (f : ModuleFile) : Except String LoadResult :=
  let moduleName := dirName ++ "." ++ f.fileName.dropRight 3
  if ¬ pyEndsWith f.fileName ".py" ∨ moduleName ∈ ignored ∨
      pyStartsWith f.fileName "_" then
    .ok acc
  else if ¬ f.hasGetModuleInfo then
    .ok { acc with
      errors := acc.errors ++ [noMethodMsg dir dirName f.fileName moduleName] }
  else if f.returnAnn = "ModuleInfo" then
    match f.invoke with
    | .raises exc => .error exc
    | .returnsInfo mi =>
      .ok { acc with
        moduleInfos := acc.moduleInfos ++ [mi],
        loadedModules := acc.loadedModules ++ [moduleName] }
    | .returnsOther =>
      .ok { acc with
        errors := acc.errors ++
          [wrongTypeMsg dir dirName f.fileName moduleName] }
  else
    .ok { acc with
      errors := acc.errors ++ [wrongTypeMsg dir dirName f.fileName moduleName] }

/-- The outer loop body of `get_module_infos` for one directory listing
entry: skip names starting with `_`, wildcard-ignored names, and
non-directories; otherwise scan the files. -/
def processDir (dir : String) (ignored : List String) (acc : LoadResult)
    (e : DirEntry) : Except String LoadResult :=
  if pyStartsWith e.dirName "_" ∨ (e.dirName ++ ".*") ∈ ignored ∨ ¬ e.isDir then
    .ok acc
  else
    e.files.foldlM (processFile dir e.dirName ignored) acc

/-- `main.get_module_infos`: scan every directory entry; afterwards, if any
errors were recorded, dev mode exits the process with all of them joined by
newlines (`sys.exit`), production logs them and continues; finally the
collected infos are sorted (`sort_module_infos`) and frozen. -/
def get_module_infos (devMode : Bool) (dir : String) (ignored : List String)
    (entries : List DirEntry) : ScanOutcome :=
  match entries.foldlM (processDir dir ignored) ⟨[], [], []⟩ with
  | .error exc => .crashed exc
  | .ok acc =>
    if acc.errors ≠ [] ∧ devMode then
      .devExit (String.intercalate "\n" acc.errors)
    else
      .completed { acc with moduleInfos := sort_module_infos acc.moduleInfos }

/-- A value inside a rule's settings dict (`default_title` flags, redirect
`url` strings, the injected `module_info` descriptor). -/
inductive SVal where
  | bool (b : Bool)
  | str (s : String)
  | moduleInfo (m : ModuleInfo)
deriving DecidableEq, Repr

/-- The contents of one settings dict: insertion-ordered key/value pairs,
as CPython dicts are. -/
abbrev SettingsDict : Type := List (String × SVal)

/-- The heap of settings dicts; rules address dicts by index. -/
abbrev Store : Type := List SettingsDict

/-- Python `d[key] = v`: overwrite in place (keeping the key's position) if
the key exists, append otherwise. -/
def dictInsert (d : SettingsDict) (key : String) (v : SVal) : SettingsDict :=
  if (d.lookup key).isSome then
    d.map (fun e => if e.1 = key then (key, v) else e)
  else d ++ [(key, v)]

/-- Read a dict out of the store (total; out-of-range ids read as empty —
the theorems constrain ids to be in range). -/
def storeGet (st : Store) (i : Nat) : SettingsDict :=
  st.getD i []

/-- The settings dict `get_all_handlers` synthesizes for a two-element
module rule. -/
def moduleSettings (mi : ModuleInfo) : SettingsDict :=
  [("default_title", .bool false), ("default_description", .bool false),
   ("module_info", .moduleInfo mi)]

/-- One iteration of the handler loop in `main.get_all_handlers`: a rule
whose class subclasses `BaseRequestHandler` gets the settings treatment —
a fresh dict for the two-element shorthand, an in-place
`handler[2]["module_info"] = module_info` otherwise; framework-builtin
rules pass through untouched. -/
def processHandler (mi : ModuleInfo) (st : Store) (h : Handler) :
    Handler × Store :=
  match h with
  | .h2 p c =>
    if c.isBaseRequestHandler then (.h3 p c st.length, st ++ [moduleSettings mi])
    else (.h2 p c, st)
  | .h3 p c d =>
    if c.isBaseRequestHandler then
      (.h3 p c d, st.set d (dictInsert (storeGet st d) "module_info" (.moduleInfo mi)))
    else (.h3 p c d, st)
  | .h4 p c d nm =>
    if c.isBaseRequestHandler then
      (.h4 p c d nm, st.set d (dictInsert (storeGet st d) "module_info" (.moduleInfo mi)))
    else (.h4 p c d nm, st)

/-- One step of the handler loop: append the processed rule, thread the
store. -/
def procStep (mi : ModuleInfo) (a : List Handler × Store) (h : Handler) :
    List Handler × Store :=
  let r := processHandler mi a.2 h
  (a.1 ++ [r.1], r.2)

/-- One step of the alias loop: append the case-insensitive redirect rule
for one alias, allocating its `{"url": path + "{0}"}` settings dict. -/
def aliasStep (p : String) (a : List Handler × Store) (al : String) :
    List Handler × Store :=
  (a.1 ++ [.h3 ("(?i)" ++ al ++ "(/.*|)") RedirectHandler a.2.length],
   a.2 ++ [[("url", .str (p ++ "\x7b0\x7d"))]])

/-- Per-descriptor part of `main.get_all_handlers`: the handler loop, then
one case-insensitive redirect rule per alias (only when the descriptor has
a path), whose settings dict is `{"url": path + "{0}"}`. -/
def processModule (acc : List Handler × Store) (mi : ModuleInfo) :
    List Handler × Store :=
  let hs := mi.handlers.foldl (procStep mi) acc
  match mi.path with
  | Option.none => hs
  | some p => mi.aliases.foldl (aliasStep p) hs

/-- `main.get_all_handlers`: start from the externally supplied static
rules, process every descriptor in order, then append the two fixed
fallback redirects — `/{anything}/api(/)?` to `/api/{anything}` and
`/api(/)?` to `/api/endpunkte` — always last. -/
def get_all_handlers (staticHandlers : List Handler)
    (infos : List ModuleInfo) (st : Store) : List Handler × Store :=
  let a := infos.foldl processModule (staticHandlers, st)
  let a2 := (a.1 ++ [.h3 "(?i)/(.+)/api/?" RedirectHandler a.2.length],
             a.2 ++ [[("url", .str "/api/\x7b0\x7d")]])
  (a2.1 ++ [.h3 "(?i)/api/?" RedirectHandler a2.2.length],
   a2.2 ++ [[("url", .str "/api/endpunkte")]])

example :
    (get_all_handlers [] [] []).1
      = [.h3 "(?i)/(.+)/api/?" RedirectHandler 0,
         .h3 "(?i)/api/?" RedirectHandler 1] := by decide

example :
    (get_all_handlers [] [] []).2
      = [[("url", .str "/api/\x7b0\x7d")], [("url", .str "/api/endpunkte")]] :=
  by decide

/-- The three-field shape of testable property 6: `name: str`, `age: int`,
`active: bool`, all ordinary constructor parameters without defaults. -/
def roundTripShape : PyTy :=
  .cls "Shape"
    [.mk "name" .posOrKw (.ty .str) Option.none,
     .mk "age" .posOrKw (.ty .int) Option.none,
     .mk "active" .posOrKw (.ty .bool) Option.none]

/-- The raw request-argument map of testable property 6. -/
def roundTripData : PyVal :=
  .dict [("name", .str "a"), ("age", .str "7"), ("active", .str "sure")]

/-- C9: parser round-trip.  On the shape `{name: str, age: int, active:
bool}` and raw input `{"name": "a", "age": "7", "active": "sure"}`,
non-strict `parse` returns the instance with fields `name = "a"`, `age =
7`, `active = True` (consuming no randomness), and the same input in
strict mode fails — `"7"` is not a native number. -/
theorem c9_parser_round_trip :
    parse 3 roundTripShape roundTripData false (fun _ => false) 0
        = (.ok (.obj "Shape"
            [("name", .str "a"), ("age", .int 7), ("active", .bool true)]), 0)
      ∧ (parse 3 roundTripShape roundTripData true (fun _ => false) 0).1
        = .error "7 is not a number." :=
  ⟨rfl, rfl⟩

/-- C10: evaluation of the union branch at the failing input.  For the
optional shape `int | None` and the raw string `"5"` (not an instance of
the union), `parse` raises `Cannot parse all Unions, only optionals.` —
the `None not in possible` test can never pass, since `typing.get_args`
yields the class `NoneType`, not the value `None` — although parsing the
same data against the non-`None` member `int` succeeds with `5`. -/
theorem c10_optional_union_is_rejected :
    (parse 3 (.union [.ty .int, .noneType]) (.str "5") false
        (fun _ => false) 0)
        = (.error "Cannot parse all Unions, only optionals.", 0)
      ∧ (parse 3 .int (.str "5") false (fun _ => false) 0)
        = (.ok (.int 5), 0) :=
  ⟨rfl, rfl⟩

/-- A shape with a single keyword-only constructor parameter `x : int`. -/
def kwOnlyShape : PyTy :=
  .cls "K" [.mk "x" .kwOnly (.ty .int) Option.none]

/-- C4: evaluation at the failing input.  For a shape whose constructor has
a keyword-only parameter `x`, the parameter loop flips `in_positional` at
the marker and routes the parsed value into the *positional* accumulator
(`args = [5]`, `kwargs = {}`) — the opposite of the claim — so the
constructor call `type_(*args, **kwargs)` raises a `TypeError` instead of
binding `x` by name. -/
theorem c4_keyword_only_param_is_passed_positionally :
    (parseFieldsH (fun t v s k => parse 2 t v false s k)
        [.mk "x" .kwOnly (.ty .int) Option.none] [("x", .int 5)] false false
        [] [] (fun _ => false) 0).1
        = .ok ([.int 5], [])
      ∧ (parse 3 kwOnlyShape (.dict [("x", .int 5)]) false
          (fun _ => false) 0).1
        = .error "TypeError: missing required keyword-only argument x" :=
  ⟨rfl, rfl⟩

/-- C2, counterexample: two invocations of `parse` on the same arguments
(the shape `bool`, the raw string `"maybe"`, non-strict) return different
results when the random choice inside `str_to_bool` differs — the parser
is not deterministic on the random truth-vocabulary. -/
theorem c2_counterexample_maybe_is_random :
    (parse 2 .bool (.str "maybe") false (fun _ => true) 0).1
        = .ok (.bool true)
      ∧ (parse 2 .bool (.str "maybe") false (fun _ => false) 0).1
        = .ok (.bool false)
      ∧ (Except.ok (PyVal.bool true) : Except String PyVal)
        ≠ .ok (.bool false) := by
  refine ⟨rfl, rfl, ?_⟩
  simp

/-- The well-formed descriptor used in the loader counterexample. -/
def goodInfo : ModuleInfo :=
  { name := "good", description := "g", path := some "/good" }

/-- C1, counterexample: a scan over three candidate units — one whose
entry point raises on invocation (with a correct return annotation), one
that declares the wrong return type, one well-formed — does *not* complete
with one descriptor and two errors: the uncaught exception propagates out
of `get_module_infos` and aborts discovery, in production mode and in
development mode alike. -/
theorem c1_counterexample_raising_unit_aborts_scan :
    get_module_infos false "an_website" IGNORED_MODULES
        [⟨"example", true,
          [⟨"raising.py", true, "ModuleInfo", .raises "boom"⟩,
           ⟨"wrong.py", true, "int", .returnsOther⟩,
           ⟨"good.py", true, "ModuleInfo", .returnsInfo goodInfo⟩]⟩]
        = .crashed "boom"
      ∧ get_module_infos true "an_website" IGNORED_MODULES
        [⟨"example", true,
          [⟨"raising.py", true, "ModuleInfo", .raises "boom"⟩,
           ⟨"wrong.py", true, "int", .returnsOther⟩,
           ⟨"good.py", true, "ModuleInfo", .returnsInfo goodInfo⟩]⟩]
        = .crashed "boom" :=
  ⟨rfl, rfl⟩

/-- Descriptor `A` of the ordering counterexample: same name/description as
`B`, larger path. -/
def infoA : ModuleInfo := { name := "a", description := "b", path := some "/z" }

/-- Descriptor `B` of the ordering counterexample: same name/description as
`A`, smaller path. -/
def infoB : ModuleInfo := { name := "a", description := "b", path := some "/a" }

/-- The unique root descriptor of the ordering counterexample. -/
def infoR : ModuleInfo := { name := "z", description := "z", path := some "/" }

/-- C5, counterexample: on `[R, A, B]` with exactly one root descriptor
`R`, the sort yields `[R, B, A]` — `A` and `B` have equal `(name,
description)` keys, so a *stable* sort by `(name, description)` would have
kept `A` before `B`; the dataclass comparison instead breaks the tie by
the later `path` field. -/
theorem c5_counterexample_tie_broken_by_path :
    sort_module_infos [infoR, infoA, infoB] = [infoR, infoB, infoA]
      ∧ infoA.name = infoB.name
      ∧ infoA.description = infoB.description
      ∧ infoA ≠ infoB := by
  refine ⟨by decide, rfl, rfl, by decide⟩

/-- The descriptor of the frame-effect counterexample: one three-element
module rule whose settings dict is stored at index 0. -/
def infoC3 : ModuleInfo :=
  { name := "m", description := "d",
    handlers := [.h3 "/x" ⟨"XHandler", true⟩ 0] }

/-- C3, counterexample: building the routing table from a descriptor whose
rule carries the settings dict stored at index 0 *mutates that dict in
place* — after `get_all_handlers` it contains the injected `module_info`
key, no longer its original (empty) contents. -/
theorem c3_counterexample_settings_dict_mutated :
    storeGet (get_all_handlers [] [infoC3] [[]]).2 0
        = [("module_info", .moduleInfo infoC3)]
      ∧ ([("module_info", SVal.moduleInfo infoC3)] : SettingsDict) ≠ [] := by
  exact ⟨by decide, by decide⟩

/-- Reading just past a store at its old length lands on the first
appended dict. -/
theorem storeGet_append_self (st : Store) (d : SettingsDict)
    (rest : Store) : storeGet (st ++ d :: rest) st.length = d := by
  simp [storeGet, List.getD, List.getElem?_append_right (Nat.le_refl _)]

/-- Reading at `length + n` into an appended store reads the appendix. -/
theorem storeGet_append_offset (st : Store) (l2 : Store) (n : Nat) :
    storeGet (st ++ l2) (st.length + n) = storeGet l2 n := by
  simp [storeGet, List.getD,
    List.getElem?_append_right (Nat.le_add_right st.length n)]

/-- Reading inside the original part of an appended store is unchanged. -/
theorem storeGet_append_left (st : Store) (l2 : Store) (n : Nat)
    (h : n < st.length) : storeGet (st ++ l2) n = storeGet st n := by
  simp [storeGet, List.getD, List.getElem?_append_left h]

/-- Shape of `get_all_handlers`: the descriptor fold, then the two fixed
fallback rules and their freshly allocated dicts. -/
theorem get_all_handlers_eq (staticHandlers : List Handler)
    (infos : List ModuleInfo) (st : Store) :
    get_all_handlers staticHandlers infos st
      = ((infos.foldl processModule (staticHandlers, st)).1
          ++ [.h3 "(?i)/(.+)/api/?" RedirectHandler
                (infos.foldl processModule (staticHandlers, st)).2.length,
              .h3 "(?i)/api/?" RedirectHandler
                ((infos.foldl processModule (staticHandlers, st)).2.length
                  + 1)],
         (infos.foldl processModule (staticHandlers, st)).2
          ++ [[("url", .str "/api/\x7b0\x7d")],
              [("url", .str "/api/endpunkte")]]) := by
  simp [get_all_handlers]

/-- C7: for every static-rule prefix, descriptor list and store, the
routing table ends with exactly the two fixed fallback redirect rules, in
order: the case-insensitive `/{anything}/api(/)?` rule redirecting to
`/api/{anything}`, then the case-insensitive `/api(/)?` rule redirecting
to `/api/endpunkte` — they are always the last two entries, and their
settings dicts hold exactly the redirect url. -/
theorem c7_fallback_redirects_always_last :
    ∀ (staticHandlers : List Handler) (infos : List ModuleInfo) (st : Store),
      ∃ (init : List Handler) (d1 d2 : Nat),
        (get_all_handlers staticHandlers infos st).1
            = init ++ [.h3 "(?i)/(.+)/api/?" RedirectHandler d1,
                       .h3 "(?i)/api/?" RedirectHandler d2]
          ∧ storeGet (get_all_handlers staticHandlers infos st).2 d1
            = [("url", .str "/api/\x7b0\x7d")]
          ∧ storeGet (get_all_handlers staticHandlers infos st).2 d2
            = [("url", .str "/api/endpunkte")] := by
  intro staticHandlers infos st
  rw [get_all_handlers_eq]
  refine ⟨(infos.foldl processModule (staticHandlers, st)).1,
    (infos.foldl processModule (staticHandlers, st)).2.length,
    (infos.foldl processModule (staticHandlers, st)).2.length + 1,
    rfl, ?_, ?_⟩
  · exact storeGet_append_self _ _ _
  · exact storeGet_append_offset _ _ 1

/-- If some element of the raw sequence fails to parse as the element
shape (for every random stream), the list comprehension of `_parse_list`
fails as a whole. -/
theorem parseListH_fails (pr : PyRec) (elem : PyTy) :
    ∀ (xs : List PyVal) (x : PyVal), x ∈ xs →
      (∀ (s' : Nat → Bool) (k' : Nat), ∃ e, (pr elem x s' k').1 = .error e) →
      ∀ (s : Nat → Bool) (k : Nat),
        ∃ e, (parseListH pr elem xs s k).1 = .error e := by
  intro xs
  induction xs with
  | nil => intro x hx; cases hx
  | cons y ys ih =>
    intro x hx hfail s k
    rcases hr : pr elem y s k with ⟨r1, k1⟩
    rcases List.mem_cons.mp hx with hxy | hxys
    · subst hxy
      obtain ⟨e, he⟩ := hfail s k
      rw [hr] at he
      simp only [parseListH, hr]
      cases r1 with
      | error e0 => exact ⟨e0, rfl⟩
      | ok v => simp at he
    · simp only [parseListH, hr]
      cases r1 with
      | error e0 => exact ⟨e0, rfl⟩
      | ok v =>
        obtain ⟨e, he⟩ := ih x hxys hfail s k1
        rcases hrest : parseListH pr elem ys s k1 with ⟨r2, k2⟩
        rw [hrest] at he
        simp only [hrest]
        cases r2 with
        | error e0 => exact ⟨e0, rfl⟩
        | ok vs => simp at he

/-- C8: list parse atomicity.  For every element shape, raw element list,
strictness and fuel, if some element fails to parse as the element shape
(whatever the random stream), then parsing the whole sequence against
`list[T]` fails — no partial list is returned. -/
theorem c8_list_parse_atomicity :
    ∀ (n : Nat) (elem : PyTy) (xs : List PyVal) (strict : Bool) (x : PyVal),
      x ∈ xs →
      (∀ (s' : Nat → Bool) (k' : Nat),
        ∃ e, (parse n elem x strict s' k').1 = .error e) →
      ∀ (s : Nat → Bool) (k : Nat),
        ∃ e, (parse (n + 1) (.list elem) (.list xs) strict s k).1
          = .error e := by
  intro n elem xs strict x hx hfail s k
  obtain ⟨e, he⟩ := parseListH_fails (fun t v s k => parse n t v strict s k)
    elem xs x hx (fun s' k' => hfail s' k') s k
  refine ⟨e, ?_⟩
  show (parseCore (fun t v s k => parse n t v strict s k)
    (.list elem) (.list xs) strict s k).1 = .error e
  simp only [parseCore]
  rcases hr : parseListH (fun t v s k => parse n t v strict s k) elem xs s k
    with ⟨r1, k1⟩
  rw [hr] at he
  cases r1 with
  | error e0 => simpa using he
  | ok vs => simp at he

/-- C8, witness: parsing a sequence-of-int from `["1", "x", "3"]` fails
entirely — `"x"` is not an integer literal — rather than yielding a
partial `[1, 3]`. -/
theorem c8_list_parse_atomicity_witness :
    ∃ e, (parse 3 (.list .int) (.list [.str "1", .str "x", .str "3"]) false
      (fun _ => false) 0).1 = .error e :=
  c8_list_parse_atomicity 2 .int [.str "1", .str "x", .str "3"] false
    (.str "x") (by simp)
    (fun s' k' => ⟨"invalid literal for int() with base 0: x", rfl⟩)
    (fun _ => false) 0

/-- Setting a dict in range is read back. -/
theorem storeGet_set_self (st : Store) (d : Nat) (x : SettingsDict)
    (h : d < st.length) : storeGet (st.set d x) d = x := by
  simp [storeGet, List.getD, List.getElem?_set_self, h]

/-- Setting one dict leaves the others unchanged. -/
theorem storeGet_set_ne (st : Store) (d d0 : Nat) (x : SettingsDict)
    (h : d ≠ d0) : storeGet (st.set d0 x) d = storeGet st d := by
  simp [storeGet, List.getD, List.getElem?_set_ne (fun hh => h hh.symm)]

/-- The settings-dict ids a rule would mutate: those of a three- or
four-element rule whose class is a `BaseRequestHandler`. -/
def settingsIdsOfBase (h : Handler) : List Nat :=
  match h with
  | .h2 _ _ => []
  | .h3 _ c d => if c.isBaseRequestHandler then [d] else []
  | .h4 _ c d _ => if c.isBaseRequestHandler then [d] else []

/-- Processing one rule never shrinks the store. -/
theorem processHandler_len (mi : ModuleInfo) (st : Store) (h : Handler) :
    st.length ≤ (processHandler mi st h).2.length := by
  rcases h with ⟨p, c⟩ | ⟨p, c, d⟩ | ⟨p, c, d, nm⟩ <;>
    simp [processHandler] <;> split <;> simp

/-- Processing one rule only touches the dict ids of that rule. -/
theorem processHandler_frame (mi : ModuleInfo) (st : Store) (h : Handler)
    (d : Nat) (hd : d < st.length) (hni : d ∉ settingsIdsOfBase h) :
    storeGet (processHandler mi st h).2 d = storeGet st d := by
  rcases h with ⟨p, c⟩ | ⟨p, c, d0⟩ | ⟨p, c, d0, nm⟩ <;>
    simp [processHandler, settingsIdsOfBase] at hni ⊢ <;> split
  · exact storeGet_append_left _ _ _ hd
  · rfl
  · rename_i hb
    exact storeGet_set_ne _ _ _ _ (hni (by simpa using hb))
  · rfl
  · rename_i hb
    exact storeGet_set_ne _ _ _ _ (hni (by simpa using hb))
  · rfl

/-- Relation between an input rule and the rule the builder emits for it:
module (`BaseRequestHandler`) two-element rules gain a fresh settings dict
holding exactly `{default_title: False, default_description: False,
module_info: mi}`; module rules that already carry a settings dict keep
their shape while the referenced dict (whose prior contents are given by
`pre`) gains the `module_info` key in place; everything else passes
through unchanged.  `stOut` is the store after the build. -/
def ruleOut (mi : ModuleInfo) (pre : Nat → SettingsDict) (stOut : Store) :
    Handler → Handler → Prop
  | .h2 p c, h' =>
    if c.isBaseRequestHandler then
      ∃ d, h' = .h3 p c d ∧ d < stOut.length
        ∧ storeGet stOut d = moduleSettings mi
    else h' = .h2 p c
  | .h3 p c d, h' =>
    h' = .h3 p c d ∧
      (c.isBaseRequestHandler = true →
        storeGet stOut d = dictInsert (pre d) "module_info" (.moduleInfo mi))
  | .h4 p c d nm, h' =>
    h' = .h4 p c d nm ∧
      (c.isBaseRequestHandler = true →
        storeGet stOut d = dictInsert (pre d) "module_info" (.moduleInfo mi))

/-- `Forall₂` can be weakened pointwise using membership of the left
list. -/
theorem forall₂_imp_mem {α β : Type} {R S : α → β → Prop}
    {l1 : List α} {l2 : List β} (h : List.Forall₂ R l1 l2)
    (himp : ∀ a ∈ l1, ∀ b, R a b → S a b) : List.Forall₂ S l1 l2 := by
  induction h with
  | nil => exact List.Forall₂.nil
  | @cons a b as bs hab _ ih =>
    exact List.Forall₂.cons (himp a (by simp) b hab)
      (ih (fun a ha b hb => himp a (by simp [ha]) b hb))

/-- The `ruleOut` relation only reads `pre` at the rule's own module dict
ids and only reads `stOut` within bounds, so it transports along stores
that agree there. -/
theorem ruleOut_congr (mi : ModuleInfo) (pre pre' : Nat → SettingsDict)
    (stOut stOut' : Store) (h h' : Handler)
    (hpre : ∀ d ∈ settingsIdsOfBase h, pre' d = pre d)
    (hlen : stOut.length ≤ stOut'.length)
    (hout : ∀ d, d < stOut.length → storeGet stOut' d = storeGet stOut d)
    (hout2 : ∀ d ∈ settingsIdsOfBase h, storeGet stOut' d = storeGet stOut d)
    (hr : ruleOut mi pre stOut h h') : ruleOut mi pre' stOut' h h' := by
  rcases h with ⟨p, c⟩ | ⟨p, c, d0⟩ | ⟨p, c, d0, nm⟩ <;>
    simp only [ruleOut, settingsIdsOfBase] at hr hpre hout2 ⊢
  · by_cases hb : c.isBaseRequestHandler
    · simp only [hb, if_true] at hr ⊢
      obtain ⟨d, h1, h2, h3⟩ := hr
      exact ⟨d, h1, lt_of_lt_of_le h2 hlen, by rw [hout d h2]; exact h3⟩
    · simpa [hb] using hr
  · refine ⟨hr.1, fun hb => ?_⟩
    have hd0 : d0 ∈ (if c.isBaseRequestHandler then [d0] else []) := by
      simp [hb]
    rw [hout2 d0 hd0, hpre d0 hd0]
    exact hr.2 hb
  · refine ⟨hr.1, fun hb => ?_⟩
    have hd0 : d0 ∈ (if c.isBaseRequestHandler then [d0] else []) := by
      simp [hb]
    rw [hout2 d0 hd0, hpre d0 hd0]
    exact hr.2 hb

/-- Ids appearing in the joined id lists of a rule list are ids of one of
its rules. -/
theorem mem_join_ids {rs : List Handler} {a : Nat}
    (h : a ∈ (rs.map settingsIdsOfBase).join) :
    ∃ r ∈ rs, a ∈ settingsIdsOfBase r := by
  rcases List.mem_join.mp h with ⟨l, hl, hal⟩
  rcases List.mem_map.mp hl with ⟨r, hr, rfl⟩
  exact ⟨r, hr, hal⟩

/-- Specification of the handler loop of `get_all_handlers` over one
descriptor: outputs align one-to-one with the input rules via `ruleOut`,
the store only grows, and dicts not referenced by any module rule are
untouched.  `B` bounds every referenced id and is itself bounded by the
initial store. -/
theorem procFold_spec (mi : ModuleInfo) (B : Nat) :
    ∀ (rs : List Handler) (st : Store) (acc : List Handler),
      B ≤ st.length →
      (∀ h ∈ rs, ∀ d ∈ settingsIdsOfBase h, d < B) →
      ((rs.map settingsIdsOfBase).join).Nodup →
      ∃ outNew : List Handler,
        (rs.foldl (procStep mi) (acc, st)).1 = acc ++ outNew
        ∧ outNew.length = rs.length
        ∧ st.length ≤ (rs.foldl (procStep mi) (acc, st)).2.length
        ∧ (∀ d, d < st.length → d ∉ (rs.map settingsIdsOfBase).join →
            storeGet (rs.foldl (procStep mi) (acc, st)).2 d = storeGet st d)
        ∧ List.Forall₂
            (ruleOut mi (storeGet st) (rs.foldl (procStep mi) (acc, st)).2)
            rs outNew := by
  intro rs
  induction rs with
  | nil =>
    intro st acc _ _ _
    exact ⟨[], by simp, rfl, le_refl _, fun d _ _ => rfl, List.Forall₂.nil⟩
  | cons h rest ih =>
    intro st acc hB hids hnd
    have hstep : procStep mi (acc, st) h
        = (acc ++ [(processHandler mi st h).1], (processHandler mi st h).2) :=
      rfl
    rw [List.foldl_cons, hstep]
    have hlen1 : st.length ≤ (processHandler mi st h).2.length :=
      processHandler_len mi st h
    have hndr : ((rest.map settingsIdsOfBase).join).Nodup := by
      have := hnd
      simp only [List.map_cons, List.join_cons] at this
      exact (List.nodup_append.mp this).2.1
    have hdisj : ∀ a ∈ settingsIdsOfBase h,
        a ∉ (rest.map settingsIdsOfBase).join := by
      have := hnd
      simp only [List.map_cons, List.join_cons] at this
      exact fun a ha => (List.nodup_append.mp this).2.2 ha
    have hidsr : ∀ r ∈ rest, ∀ d ∈ settingsIdsOfBase r, d < B :=
      fun r hr => hids r (List.mem_cons_of_mem h hr)
    obtain ⟨outR, e1, e2, e3, frameR, F2R⟩ :=
      ih (processHandler mi st h).2 (acc ++ [(processHandler mi st h).1])
        (le_trans hB hlen1) hidsr hndr
    have hframe1 : ∀ d ∈ (rest.map settingsIdsOfBase).join,
        storeGet (processHandler mi st h).2 d = storeGet st d := by
      intro d hd
      obtain ⟨r, hr, hdr⟩ := mem_join_ids hd
      have hdB : d < B := hidsr r hr d hdr
      refine processHandler_frame mi st h d (lt_of_lt_of_le hdB hB) ?_
      intro hdh
      exact hdisj d hdh hd
    refine ⟨(processHandler mi st h).1 :: outR, ?_, by simp [e2], ?_, ?_, ?_⟩
    · rw [e1]; simp
    · exact le_trans hlen1 e3
    · intro d hd hdni
      have hdni2 : d ∉ (rest.map settingsIdsOfBase).join := by
        intro hmem
        exact hdni (by simp only [List.map_cons, List.join_cons,
          List.mem_append]; exact Or.inr hmem)
      have hdnih : d ∉ settingsIdsOfBase h := by
        intro hmem
        exact hdni (by simp only [List.map_cons, List.join_cons,
          List.mem_append]; exact Or.inl hmem)
      rw [frameR d (lt_of_lt_of_le hd hlen1) hdni2,
        processHandler_frame mi st h d hd hdnih]
    · refine List.Forall₂.cons ?_ ?_
      · -- head rule satisfies ruleOut
        rcases hC : h with ⟨p, c⟩ | ⟨p, c, d0⟩ | ⟨p, c, d0, nm⟩ <;> subst hC
        · by_cases hb : c.isBaseRequestHandler
          · have hh : processHandler mi st (.h2 p c)
                = (.h3 p c st.length, st ++ [moduleSettings mi]) := by
              simp [processHandler, hb]
            simp only [hh] at e3 frameR ⊢
            simp only [ruleOut, hb, if_true]
            refine ⟨st.length, rfl, ?_, ?_⟩
            · simp only [List.length_append, List.length_cons,
                List.length_nil] at e3
              omega
            · have hni : st.length ∉ (rest.map settingsIdsOfBase).join := by
                intro hmem
                obtain ⟨r, hr, hdr⟩ := mem_join_ids hmem
                have := hidsr r hr st.length hdr
                omega
              rw [frameR st.length (by simp) hni, storeGet_append_self]
          · have hh : processHandler mi st (.h2 p c) = (.h2 p c, st) := by
              simp [processHandler, hb]
            simp [hh, ruleOut, hb]
        · by_cases hb : c.isBaseRequestHandler
          · have hmem : d0 ∈ settingsIdsOfBase (Handler.h3 p c d0) := by
              simp [settingsIdsOfBase, hb]
            have hd0 : d0 < st.length :=
              lt_of_lt_of_le (hids _ (List.mem_cons_self _ _) d0 hmem) hB
            have hh : processHandler mi st (.h3 p c d0)
                = (.h3 p c d0, st.set d0 (dictInsert (storeGet st d0)
                    "module_info" (.moduleInfo mi))) := by
              simp [processHandler, hb]
            simp only [hh] at frameR ⊢
            simp only [ruleOut]
            refine ⟨by trivial, fun _ => ?_⟩
            have hni : d0 ∉ (rest.map settingsIdsOfBase).join :=
              hdisj d0 hmem
            rw [frameR d0 (by simpa using hd0) hni,
              storeGet_set_self _ _ _ hd0]
          · have hh : processHandler mi st (.h3 p c d0)
                = (.h3 p c d0, st) := by
              simp [processHandler, hb]
            simp [hh, ruleOut, hb]
        · by_cases hb : c.isBaseRequestHandler
          · have hmem : d0 ∈ settingsIdsOfBase (Handler.h4 p c d0 nm) := by
              simp [settingsIdsOfBase, hb]
            have hd0 : d0 < st.length :=
              lt_of_lt_of_le (hids _ (List.mem_cons_self _ _) d0 hmem) hB
            have hh : processHandler mi st (.h4 p c d0 nm)
                = (.h4 p c d0 nm, st.set d0 (dictInsert (storeGet st d0)
                    "module_info" (.moduleInfo mi))) := by
              simp [processHandler, hb]
            simp only [hh] at frameR ⊢
            simp only [ruleOut]
            refine ⟨by trivial, fun _ => ?_⟩
            have hni : d0 ∉ (rest.map settingsIdsOfBase).join :=
              hdisj d0 hmem
            rw [frameR d0 (by simpa using hd0) hni,
              storeGet_set_self _ _ _ hd0]
          · have hh : processHandler mi st (.h4 p c d0 nm)
                = (.h4 p c d0 nm, st) := by
              simp [processHandler, hb]
            simp [hh, ruleOut, hb]
      · -- tail rules transport from the st₁ precondition to st
        refine forall₂_imp_mem F2R ?_
        intro a ha b hab
        refine ruleOut_congr mi (storeGet (processHandler mi st h).2)
          (storeGet st) _ _ a b ?_ (le_refl _) (fun d _ => rfl)
          (fun d _ => rfl) hab
        intro d hd
        have hdj : d ∈ (rest.map settingsIdsOfBase).join := by
          refine List.mem_join.mpr ⟨settingsIdsOfBase a, ?_, hd⟩
          exact List.mem_map.mpr ⟨a, ha, rfl⟩
        exact (hframe1 d hdj).symm

/-- The alias loop only appends rules and dicts. -/
theorem aliasFold_shape (p : String) :
    ∀ (als : List String) (acc : List Handler × Store),
      ∃ hs2 ds2, als.foldl (aliasStep p) acc = (acc.1 ++ hs2, acc.2 ++ ds2) := by
  intro als
  induction als with
  | nil => exact fun acc => ⟨[], [], by simp⟩
  | cons al rest ih =>
    intro acc
    obtain ⟨hs2, ds2, he⟩ := ih (aliasStep p acc al)
    refine ⟨.h3 ("(?i)" ++ al ++ "(/.*|)") RedirectHandler acc.2.length :: hs2,
      [("url", .str (p ++ "\x7b0\x7d"))] :: ds2, ?_⟩
    rw [List.foldl_cons, he]
    simp [aliasStep]

/-- Processing one descriptor is the handler loop followed by appends
only. -/
theorem processModule_shape (acc : List Handler × Store) (mi : ModuleInfo) :
    ∃ hs2 ds2, processModule acc mi
      = ((mi.handlers.foldl (procStep mi) acc).1 ++ hs2,
         (mi.handlers.foldl (procStep mi) acc).2 ++ ds2) := by
  unfold processModule
  rcases mi.path with _ | p
  · exact ⟨[], [], by simp⟩
  · obtain ⟨hs2, ds2, he⟩ :=
      aliasFold_shape p mi.aliases (mi.handlers.foldl (procStep mi) acc)
    exact ⟨hs2, ds2, he⟩

/-- Every matched left element of a `Forall₂` has a related right
element. -/
theorem forall₂_exists_right {α β : Type} {R : α → β → Prop}
    {l1 : List α} {l2 : List β} (h : List.Forall₂ R l1 l2) :
    ∀ a ∈ l1, ∃ b ∈ l2, R a b := by
  induction h with
  | nil => intro a ha; cases ha
  | @cons a b as bs hab _ ih =>
    intro x hx
    rcases List.mem_cons.mp hx with rfl | hxs
    · exact ⟨b, by simp, hab⟩
    · obtain ⟨y, hy, hxy⟩ := ih x hxs
      exact ⟨y, by simp [hy], hxy⟩

/-- Core specification of `get_all_handlers` on a single descriptor: the
output is the static prefix, then one output rule per input rule related
by `ruleOut`, then the alias and fallback rules; dict ids must be in range
and pairwise distinct (`handlers` tuples of a well-formed application
reference distinct dict literals). -/
theorem single_module_spec (staticHandlers : List Handler)
    (mi : ModuleInfo) (st : Store)
    (hids : ∀ h ∈ mi.handlers, ∀ d ∈ settingsIdsOfBase h, d < st.length)
    (hnd : ((mi.handlers.map settingsIdsOfBase).join).Nodup) :
    ∃ (outNew rest2 : List Handler),
      (get_all_handlers staticHandlers [mi] st).1
          = staticHandlers ++ outNew ++ rest2
        ∧ outNew.length = mi.handlers.length
        ∧ List.Forall₂
            (ruleOut mi (storeGet st) (get_all_handlers staticHandlers [mi] st).2)
            mi.handlers outNew
        ∧ (∀ d, d < st.length →
            d ∉ (mi.handlers.map settingsIdsOfBase).join →
            storeGet (get_all_handlers staticHandlers [mi] st).2 d
              = storeGet st d) := by
  obtain ⟨outNew, e1, e2, e3, frameF, F2⟩ :=
    procFold_spec mi st.length mi.handlers st staticHandlers (le_refl _)
      hids hnd
  obtain ⟨hs2, ds2, hpm⟩ :=
    processModule_shape (staticHandlers, st) mi
  have hfold1 : List.foldl processModule (staticHandlers, st) [mi]
      = processModule (staticHandlers, st) mi := by simp
  have hG := get_all_handlers_eq staticHandlers [mi] st
  rw [hfold1, hpm] at hG
  have hG1 : (get_all_handlers staticHandlers [mi] st).1
      = staticHandlers ++ outNew
        ++ (hs2 ++ [.h3 "(?i)/(.+)/api/?" RedirectHandler
              ((mi.handlers.foldl (procStep mi) (staticHandlers, st)).2
                ++ ds2).length,
            .h3 "(?i)/api/?" RedirectHandler
              (((mi.handlers.foldl (procStep mi) (staticHandlers, st)).2
                ++ ds2).length + 1)]) := by
    rw [hG, e1]; simp
  have hG2 : (get_all_handlers staticHandlers [mi] st).2
      = (mi.handlers.foldl (procStep mi) (staticHandlers, st)).2
        ++ (ds2 ++ [[("url", .str "/api/\x7b0\x7d")],
                    [("url", .str "/api/endpunkte")]]) := by
    rw [hG]; simp
  have houtlen : ∀ d, d <
      (mi.handlers.foldl (procStep mi) (staticHandlers, st)).2.length →
      storeGet (get_all_handlers staticHandlers [mi] st).2 d
        = storeGet (mi.handlers.foldl (procStep mi) (staticHandlers, st)).2 d := by
    intro d hd
    rw [hG2]
    exact storeGet_append_left _ _ _ hd
  refine ⟨outNew, _, hG1, e2, ?_, ?_⟩
  · refine forall₂_imp_mem F2 ?_
    intro a ha b hab
    refine ruleOut_congr mi (storeGet st) (storeGet st) _ _ a b
      (fun _ _ => rfl) ?_ houtlen ?_ hab
    · rw [hG2]; simp
    · intro d hd
      exact houtlen d (lt_of_lt_of_le (hids a ha d hd) e3)
  · intro d hd hdni
    rw [houtlen d (lt_of_lt_of_le hd e3)]
    exact frameF d hd hdni

/-- C6: settings synthesis.  For every routing rule of a descriptor (inside
the builder run on that descriptor, an arbitrary static prefix and store,
with the rule dict ids in range and distinct): a two-element module rule
`(pattern, cls)` becomes `(pattern, cls, d)` for a fresh dict `d` holding
exactly `{default_title: False, default_description: False, module_info:
descriptor}`; a module rule that already carries a settings dict keeps its
shape and its dict keeps all existing keys with `module_info` mapped to
the descriptor (`dictInsert`); native (non-`BaseRequestHandler`) rules
pass through unchanged — the content of the `ruleOut` relation. -/
theorem c6_settings_synthesis (staticHandlers : List Handler)
    (mi : ModuleInfo) (st : Store)
    (hids : ∀ h ∈ mi.handlers, ∀ d ∈ settingsIdsOfBase h, d < st.length)
    (hnd : ((mi.handlers.map settingsIdsOfBase).join).Nodup) :
    ∃ (outNew rest2 : List Handler),
      (get_all_handlers staticHandlers [mi] st).1
          = staticHandlers ++ outNew ++ rest2
        ∧ outNew.length = mi.handlers.length
        ∧ List.Forall₂
            (ruleOut mi (storeGet st)
              (get_all_handlers staticHandlers [mi] st).2)
            mi.handlers outNew := by
  obtain ⟨outNew, rest2, h1, h2, h3, _⟩ :=
    single_module_spec staticHandlers mi st hids hnd
  exact ⟨outNew, rest2, h1, h2, h3⟩

/-- The descriptor of the settings-synthesis witness: a shorthand module
rule, a module rule with a settings dict, and a native redirect rule. -/
def mi6 : ModuleInfo :=
  { name := "m6", description := "d",
    handlers := [.h2 "/a" ⟨"AHandler", true⟩,
                 .h3 "/b" ⟨"BHandler", true⟩ 0,
                 .h2 "/r" RedirectHandler] }

/-- C6, witness: the synthesis theorem applied to a concrete descriptor
and store. -/
theorem c6_settings_synthesis_witness :
    ∃ (outNew rest2 : List Handler),
      (get_all_handlers [] [mi6] [[("x", .str "v")]]).1
          = [] ++ outNew ++ rest2
        ∧ outNew.length = mi6.handlers.length
        ∧ List.Forall₂
            (ruleOut mi6 (storeGet [[("x", .str "v")]])
              (get_all_handlers [] [mi6] [[("x", .str "v")]]).2)
            mi6.handlers outNew :=
  c6_settings_synthesis [] mi6 [[("x", .str "v")]] (by decide) (by decide)

/-- All settings-dict ids a rule references (module or native). -/
def settingsIdsAll (h : Handler) : List Nat :=
  match h with
  | .h2 _ _ => []
  | .h3 _ _ d => [d]
  | .h4 _ _ d _ => [d]

/-- Whether a rule's class is a `BaseRequestHandler` subclass. -/
def handlerIsBase (h : Handler) : Bool :=
  match h with
  | .h2 _ c => c.isBaseRequestHandler
  | .h3 _ c _ => c.isBaseRequestHandler
  | .h4 _ c _ _ => c.isBaseRequestHandler

/-- The module-rule ids are among all referenced ids. -/
theorem idsOfBase_sublist (h : Handler) :
    (settingsIdsOfBase h).Sublist (settingsIdsAll h) := by
  rcases h with ⟨p, c⟩ | ⟨p, c, d⟩ | ⟨p, c, d, nm⟩ <;>
    simp [settingsIdsOfBase, settingsIdsAll] <;> split <;> simp

/-- Joined module-rule ids are among all joined ids. -/
theorem join_idsOfBase_sublist (rs : List Handler) :
    ((rs.map settingsIdsOfBase).join).Sublist
      ((rs.map settingsIdsAll).join) := by
  induction rs with
  | nil => simp
  | cons h rest ih =>
    simp only [List.map_cons, List.join_cons]
    exact List.Sublist.append (idsOfBase_sublist h) ih

/-- A non-module rule has no module-rule ids. -/
theorem idsOfBase_eq_nil (h : Handler) (hb : handlerIsBase h = false) :
    settingsIdsOfBase h = [] := by
  rcases h with ⟨p, c⟩ | ⟨p, c, d⟩ | ⟨p, c, d, nm⟩ <;>
    simp [handlerIsBase] at hb <;> simp [settingsIdsOfBase, hb]

/-- With globally distinct dict ids, an id referenced by a non-module rule
is not referenced by any module rule. -/
theorem not_mem_base_ids (rs : List Handler)
    (hnd : ((rs.map settingsIdsAll).join).Nodup) :
    ∀ h ∈ rs, handlerIsBase h = false →
      ∀ d ∈ settingsIdsAll h, d ∉ (rs.map settingsIdsOfBase).join := by
  induction rs with
  | nil => intro h hh; cases hh
  | cons r rest ih =>
    simp only [List.map_cons, List.join_cons] at hnd
    have hparts := List.nodup_append.mp hnd
    intro h hh hb d hd
    rcases List.mem_cons.mp hh with rfl | hh2
    · intro hmem
      rcases List.mem_append.mp hmem with hml | hmr
      · rw [idsOfBase_eq_nil h hb] at hml
        cases hml
      · exact hparts.2.2 hd ((join_idsOfBase_sublist rest).subset hmr)
    · intro hmem
      rcases List.mem_append.mp hmem with hml | hmr
      · have hdall : d ∈ (rest.map settingsIdsAll).join := by
          refine List.mem_join.mpr ⟨settingsIdsAll h, ?_, hd⟩
          exact List.mem_map.mpr ⟨h, hh2, rfl⟩
        exact hparts.2.2 ((idsOfBase_sublist r).subset hml) hdall
      · exact ih hparts.2.1 h hh2 hb d hd hmr

/-- C3, amended: the builder never mutates the descriptors or their
handler tuples, but for every *module* rule carrying a settings dict it
writes `module_info` into that dict in place (`handler[2]["module_info"] =
module_info`, keeping all other keys per `dictInsert`); the settings dicts
referenced by native rules are left unchanged.  Stated for one descriptor,
any static prefix and store, with referenced dict ids in range and
pairwise distinct. -/
theorem c3_builder_mutation_amended (staticHandlers : List Handler)
    (mi : ModuleInfo) (st : Store)
    (hids : ∀ h ∈ mi.handlers, ∀ d ∈ settingsIdsAll h, d < st.length)
    (hnd : ((mi.handlers.map settingsIdsAll).join).Nodup) :
    ∀ h ∈ mi.handlers, ∀ d ∈ settingsIdsAll h,
      storeGet (get_all_handlers staticHandlers [mi] st).2 d
        = if handlerIsBase h then
            dictInsert (storeGet st d) "module_info" (.moduleInfo mi)
          else storeGet st d := by
  have hids' : ∀ h ∈ mi.handlers, ∀ d ∈ settingsIdsOfBase h, d < st.length :=
    fun h hh d hd => hids h hh d ((idsOfBase_sublist h).subset hd)
  have hnd' : ((mi.handlers.map settingsIdsOfBase).join).Nodup :=
    hnd.sublist (join_idsOfBase_sublist mi.handlers)
  obtain ⟨outNew, rest2, _, _, F2, frame⟩ :=
    single_module_spec staticHandlers mi st hids' hnd'
  intro h hh d hd
  by_cases hb : handlerIsBase h
  · rw [if_pos hb]
    obtain ⟨b, _, hr⟩ := forall₂_exists_right F2 h hh
    rcases h with ⟨p, c⟩ | ⟨p, c, d0⟩ | ⟨p, c, d0, nm⟩
    · simp [settingsIdsAll] at hd
    · simp only [settingsIdsAll, List.mem_singleton] at hd
      subst hd
      exact hr.2 (by simpa [handlerIsBase] using hb)
    · simp only [settingsIdsAll, List.mem_singleton] at hd
      subst hd
      exact hr.2 (by simpa [handlerIsBase] using hb)
  · rw [if_neg hb]
    refine frame d (hids h hh d hd) ?_
    exact not_mem_base_ids mi.handlers hnd h hh (by simpa using hb) d hd

/-- The descriptor of the frame witness: one module rule with a settings
dict at id 0 and one native redirect rule with its dict at id 1. -/
def mi3 : ModuleInfo :=
  { name := "m3", description := "d",
    handlers := [.h3 "/b" ⟨"BHandler", true⟩ 0,
                 .h3 "/r" RedirectHandler 1] }

/-- C3, witness: the amended frame theorem applied to a concrete
descriptor and store, instantiated at its module rule (dict 0, mutated in
place) and at its native redirect rule (dict 1, untouched). -/
theorem c3_builder_mutation_amended_witness :
    (storeGet (get_all_handlers [] [mi3] [[], [("url", .str "/x")]]).2 0
        = if handlerIsBase (.h3 "/b" ⟨"BHandler", true⟩ 0) then
            dictInsert (storeGet [[], [("url", .str "/x")]] 0)
              "module_info" (.moduleInfo mi3)
          else storeGet [[], [("url", .str "/x")]] 0)
      ∧ (storeGet (get_all_handlers [] [mi3] [[], [("url", .str "/x")]]).2 1
        = if handlerIsBase (.h3 "/r" RedirectHandler 1) then
            dictInsert (storeGet [[], [("url", .str "/x")]] 1)
              "module_info" (.moduleInfo mi3)
          else storeGet [[], [("url", .str "/x")]] 1) :=
  ⟨c3_builder_mutation_amended [] mi3 [[], [("url", .str "/x")]]
      (by decide) (by decide) (.h3 "/b" ⟨"BHandler", true⟩ 0) (by decide)
      0 (by decide),
   c3_builder_mutation_amended [] mi3 [[], [("url", .str "/x")]]
      (by decide) (by decide) (.h3 "/r" RedirectHandler 1) (by decide)
      1 (by decide)⟩

/-- Lexicographic character comparison is irreflexive. -/
theorem listLtChar_irrefl : ∀ as : List Char, listLtChar as as = false := by
  intro as
  induction as with
  | nil => rfl
  | cons a t ih => simp [listLtChar, ih]

/-- Lexicographic character comparison is asymmetric. -/
theorem listLtChar_asymm :
    ∀ as bs : List Char, listLtChar as bs = true → listLtChar bs as = false := by
  intro as
  induction as with
  | nil =>
    intro bs h
    cases bs with
    | nil => exact absurd h (by decide)
    | cons b t => rfl
  | cons a t ih =>
    intro bs h
    cases bs with
    | nil => simp [listLtChar.eq_def] at h
    | cons b u =>
      by_cases hab : a = b
      · subst hab
        simp only [listLtChar, ne_eq, not_true_eq_false, if_neg,
          not_false_eq_true, if_false] at h ⊢
        try simp at h ⊢
        exact ih u h
      · simp only [listLtChar, ne_eq, hab, not_false_eq_true, if_true] at h ⊢
        have hba : ¬ b = a := fun hh => hab hh.symm
        simp only [hba, not_false_eq_true, if_true]
        simp only [decide_eq_true_eq] at h
        simpa using not_lt_of_gt h

/-- Lexicographic character comparison is transitive. -/
theorem listLtChar_trans :
    ∀ as bs cs : List Char, listLtChar as bs = true →
      listLtChar bs cs = true → listLtChar as cs = true := by
  intro as
  induction as with
  | nil =>
    intro bs cs h1 h2
    cases bs with
    | nil => exact absurd h1 (by decide)
    | cons b u =>
      cases cs with
      | nil => exact absurd h2 (by simp [listLtChar.eq_def])
      | cons c w => rfl
  | cons a t ih =>
    intro bs cs h1 h2
    cases bs with
    | nil => simp [listLtChar.eq_def] at h1
    | cons b u =>
      cases cs with
      | nil => simp [listLtChar.eq_def] at h2
      | cons c w =>
        by_cases hab : a = b <;> by_cases hbc : b = c
        · subst hab; subst hbc
          simp only [listLtChar, ne_eq, not_true_eq_false, if_neg,
            not_false_eq_true] at h1 h2 ⊢
          try simp at h1 h2 ⊢
          exact ih u w h1 h2
        · subst hab
          simp only [listLtChar, ne_eq, hbc, not_false_eq_true, if_true]
            at h2 ⊢
          exact h2
        · subst hbc
          simp only [listLtChar, ne_eq, hab, not_false_eq_true, if_true]
            at h1 ⊢
          exact h1
        · simp only [listLtChar, ne_eq, hab, hbc, not_false_eq_true,
            if_true, decide_eq_true_eq] at h1 h2
          have hac : a < c := lt_trans h1 h2
          have hne : ¬ a = c := ne_of_lt hac
          simp [listLtChar, hne, hac]

/-- Lexicographic character comparison is total on distinct lists. -/
theorem listLtChar_total :
    ∀ as bs : List Char, as ≠ bs →
      listLtChar as bs = true ∨ listLtChar bs as = true := by
  intro as
  induction as with
  | nil =>
    intro bs h
    cases bs with
    | nil => exact absurd rfl h
    | cons b u => exact Or.inl rfl
  | cons a t ih =>
    intro bs h
    cases bs with
    | nil => exact Or.inr rfl
    | cons b u =>
      by_cases hab : a = b
      · subst hab
        have htu : t ≠ u := fun hh => h (by rw [hh])
        rcases ih u htu with h1 | h1
        · exact Or.inl (by simpa [listLtChar] using h1)
        · exact Or.inr (by simpa [listLtChar] using h1)
      · rcases lt_or_gt_of_ne hab with hl | hl
        · exact Or.inl (by simp [listLtChar, hab, hl])
        · refine Or.inr ?_
          have hba : ¬ b = a := fun hh => hab hh.symm
          simp [listLtChar, hba, hl]

/-- Distinct strings have distinct character lists. -/
theorem string_data_ne {s t : String} (h : s ≠ t) : s.data ≠ t.data := by
  intro hd
  apply h
  cases s; cases t
  exact congrArg String.mk hd

/-- String comparison is irreflexive. -/
theorem pyStrLt_irrefl (s : String) : pyStrLt s s = false :=
  listLtChar_irrefl s.data

/-- String comparison is asymmetric. -/
theorem pyStrLt_asymm {s t : String} (h : pyStrLt s t = true) :
    pyStrLt t s = false :=
  listLtChar_asymm s.data t.data h

/-- String comparison is transitive. -/
theorem pyStrLt_trans {s t u : String} (h1 : pyStrLt s t = true)
    (h2 : pyStrLt t u = true) : pyStrLt s u = true :=
  listLtChar_trans s.data t.data u.data h1 h2

/-- String comparison is total on distinct strings. -/
theorem pyStrLt_total {s t : String} (h : s ≠ t) :
    pyStrLt s t = true ∨ pyStrLt t s = true :=
  listLtChar_total s.data t.data (string_data_ne h)

/-- The sort key that decides a dataclass comparison within its first
three fields: `(name, description, path)` lexicographically (the path
component is only consulted when both paths are present). -/
def keyLt (a b : ModuleInfo) : Bool :=
  pyStrLt a.name b.name
    || (a.name == b.name
      && (pyStrLt a.description b.description
        || (a.description == b.description
          && pyStrLt (a.path.getD "") (b.path.getD ""))))

/-- A pair of descriptors whose dataclass comparison is decided within the
first three fields: names differ, or descriptions differ, or both paths
are present and differ. -/
def cmpDecided (a b : ModuleInfo) : Prop :=
  a.name ≠ b.name ∨ a.description ≠ b.description ∨
    (a.path ≠ b.path ∧ a.path.isSome = true ∧ b.path.isSome = true)

instance cmpDecidedDecidable (a b : ModuleInfo) :
    Decidable (cmpDecided a b) := by
  unfold cmpDecided
  infer_instance

/-- Unfolding of `keyLt` into propositional form. -/
theorem keyLt_iff (a b : ModuleInfo) :
    keyLt a b = true ↔
      pyStrLt a.name b.name = true
        ∨ (a.name = b.name ∧ (pyStrLt a.description b.description = true
            ∨ (a.description = b.description
              ∧ pyStrLt (a.path.getD "") (b.path.getD "") = true))) := by
  simp [keyLt, Bool.or_eq_true, Bool.and_eq_true]

/-- `keyLt` is asymmetric. -/
theorem keyLt_asymm {a b : ModuleInfo} (h : keyLt a b = true) :
    keyLt b a = false := by
  rcases (keyLt_iff a b).mp h with h1 | ⟨hn, h2⟩
  · have hasym := pyStrLt_asymm h1
    have hne : b.name ≠ a.name := by
      intro hh
      rw [hh] at h1
      rw [pyStrLt_irrefl] at h1
      exact Bool.false_ne_true h1
    rw [show keyLt b a = false ↔ ¬ keyLt b a = true by simp, keyLt_iff]
    rintro (hx | ⟨hxn, _⟩)
    · rw [hasym] at hx; exact Bool.false_ne_true hx
    · exact hne hxn
  · rcases h2 with hd | ⟨hdeq, hp⟩
    · have hasym := pyStrLt_asymm hd
      have hne : b.description ≠ a.description := by
        intro hh
        rw [hh] at hd
        rw [pyStrLt_irrefl] at hd
        exact Bool.false_ne_true hd
      rw [show keyLt b a = false ↔ ¬ keyLt b a = true by simp, keyLt_iff]
      rintro (hx | ⟨hxn, hx2⟩)
      · rw [hn] at hx
        rw [pyStrLt_irrefl] at hx
        exact Bool.false_ne_true hx
      · rcases hx2 with hx | ⟨hxd, _⟩
        · rw [hasym] at hx; exact Bool.false_ne_true hx
        · exact hne hxd
    · have hasym := pyStrLt_asymm hp
      have hne : b.path.getD "" ≠ a.path.getD "" := by
        intro hh
        rw [hh] at hp
        rw [pyStrLt_irrefl] at hp
        exact Bool.false_ne_true hp
      rw [show keyLt b a = false ↔ ¬ keyLt b a = true by simp, keyLt_iff]
      rintro (hx | ⟨hxn, hx2⟩)
      · rw [hn] at hx
        rw [pyStrLt_irrefl] at hx
        exact Bool.false_ne_true hx
      · rcases hx2 with hx | ⟨hxd, hxp⟩
        · rw [hdeq] at hx
          rw [pyStrLt_irrefl] at hx
          exact Bool.false_ne_true hx
        · rw [hasym] at hxp; exact Bool.false_ne_true hxp

/-- `keyLt` is transitive. -/
theorem keyLt_trans {a b c : ModuleInfo} (h1 : keyLt a b = true)
    (h2 : keyLt b c = true) : keyLt a c = true := by
  rw [keyLt_iff] at h1 h2 ⊢
  rcases h1 with hn1 | ⟨he1, h1'⟩ <;> rcases h2 with hn2 | ⟨he2, h2'⟩
  · exact Or.inl (pyStrLt_trans hn1 hn2)
  · rw [← he2]; exact Or.inl hn1
  · rw [he1]; exact Or.inl hn2
  · refine Or.inr ⟨he1.trans he2, ?_⟩
    rcases h1' with hd1 | ⟨hde1, hp1⟩ <;> rcases h2' with hd2 | ⟨hde2, hp2⟩
    · exact Or.inl (pyStrLt_trans hd1 hd2)
    · rw [← hde2]; exact Or.inl hd1
    · rw [hde1]; exact Or.inl hd2
    · exact Or.inr ⟨hde1.trans hde2, pyStrLt_trans hp1 hp2⟩

/-- `keyLt` is total on pairs whose comparison is decided early. -/
theorem keyLt_total {a b : ModuleInfo} (h : cmpDecided a b) :
    keyLt a b = true ∨ keyLt b a = true := by
  rcases h with hn | hd | ⟨hp, hsa, hsb⟩
  · rcases pyStrLt_total hn with h1 | h1
    · exact Or.inl ((keyLt_iff a b).mpr (Or.inl h1))
    · exact Or.inr ((keyLt_iff b a).mpr (Or.inl h1))
  · by_cases hn : a.name = b.name
    · rcases pyStrLt_total hd with h1 | h1
      · exact Or.inl ((keyLt_iff a b).mpr (Or.inr ⟨hn, Or.inl h1⟩))
      · exact Or.inr ((keyLt_iff b a).mpr (Or.inr ⟨hn.symm, Or.inl h1⟩))
    · rcases pyStrLt_total hn with h1 | h1
      · exact Or.inl ((keyLt_iff a b).mpr (Or.inl h1))
      · exact Or.inr ((keyLt_iff b a).mpr (Or.inl h1))
  · by_cases hn : a.name = b.name
    · by_cases hdd : a.description = b.description
      · have hpd : a.path.getD "" ≠ b.path.getD "" := by
          rcases ha : a.path with _ | p
          · rw [ha] at hsa; simp at hsa
          · rcases hb : b.path with _ | q
            · rw [hb] at hsb; simp at hsb
            · rw [ha, hb] at hp
              intro hh
              simp only [ha, hb, Option.getD_some] at hh
              exact hp (by rw [hh])
        rcases pyStrLt_total hpd with h1 | h1
        · exact Or.inl ((keyLt_iff a b).mpr (Or.inr ⟨hn, Or.inr ⟨hdd, h1⟩⟩))
        · exact Or.inr
            ((keyLt_iff b a).mpr (Or.inr ⟨hn.symm, Or.inr ⟨hdd.symm, h1⟩⟩))
      · rcases pyStrLt_total hdd with h1 | h1
        · exact Or.inl ((keyLt_iff a b).mpr (Or.inr ⟨hn, Or.inl h1⟩))
        · exact Or.inr ((keyLt_iff b a).mpr (Or.inr ⟨hn.symm, Or.inl h1⟩))
    · rcases pyStrLt_total hn with h1 | h1
      · exact Or.inl ((keyLt_iff a b).mpr (Or.inl h1))
      · exact Or.inr ((keyLt_iff b a).mpr (Or.inl h1))

/-- The dataclass comparison is irreflexive (on equal descriptors it runs
into the modelled tail, which yields no `True`). -/
theorem pyLtB_self (a : ModuleInfo) : pyLtB a a = false := by
  unfold pyLtB pyLt pyLtTail
  rcases a.path with _ | p <;> simp [Except.toOption]

/-- On pairs decided within the first three fields, the dataclass
comparison agrees with the key comparison `keyLt`. -/
theorem pyLtB_eq_keyLt {a b : ModuleInfo} (h : cmpDecided a b) :
    pyLtB a b = keyLt a b := by
  rcases h with hn | hd | ⟨hp, hsa, hsb⟩
  · unfold pyLtB pyLt
    rw [if_pos hn]
    unfold keyLt
    rcases htot : pyStrLt a.name b.name
    · have hbeq : (a.name == b.name) = false := by
        simpa using hn
      simp [Except.toOption, hbeq]
    · simp [Except.toOption]
  · by_cases hn : a.name = b.name
    · unfold pyLtB pyLt
      rw [if_neg (by simpa using hn), if_pos hd]
      unfold keyLt
      have hirr : pyStrLt a.name b.name = false := by
        rw [hn]; exact pyStrLt_irrefl _
      have hbeq : (a.description == b.description) = false := by
        simpa using hd
      rcases htot : pyStrLt a.description b.description <;>
        simp [Except.toOption, hirr, hn, hbeq, pyStrLt_irrefl]
    · unfold pyLtB pyLt
      rw [if_pos hn]
      unfold keyLt
      rcases htot : pyStrLt a.name b.name
      · have hbeq : (a.name == b.name) = false := by
          simpa using hn
        simp [Except.toOption, hbeq]
      · simp [Except.toOption]
  · by_cases hn : a.name = b.name
    · by_cases hdd : a.description = b.description
      · rcases ha : a.path with _ | p
        · rw [ha] at hsa; simp at hsa
        · rcases hb : b.path with _ | q
          · rw [hb] at hsb; simp at hsb
          · have hpq : p ≠ q := by
              rw [ha, hb] at hp
              intro hh
              exact hp (by rw [hh])
            unfold pyLtB pyLt
            rw [if_neg (by simpa using hn), if_neg (by simpa using hdd),
              ha, hb]
            simp only [hpq, ne_eq, not_false_eq_true, if_true]
            unfold keyLt
            have hirr1 : pyStrLt a.name b.name = false := by
              rw [hn]; exact pyStrLt_irrefl _
            have hirr2 : pyStrLt a.description b.description = false := by
              rw [hdd]; exact pyStrLt_irrefl _
            simp [Except.toOption, hirr1, hirr2, hn, hdd, ha, hb, pyStrLt_irrefl]
      · unfold pyLtB pyLt
        rw [if_neg (by simpa using hn), if_pos hdd]
        unfold keyLt
        have hirr : pyStrLt a.name b.name = false := by
          rw [hn]; exact pyStrLt_irrefl _
        have hbeq : (a.description == b.description) = false := by
          simpa using hdd
        rcases htot : pyStrLt a.description b.description <;>
          simp [Except.toOption, hirr, hn, hbeq, pyStrLt_irrefl]
    · unfold pyLtB pyLt
      rw [if_pos hn]
      unfold keyLt
      rcases htot : pyStrLt a.name b.name
      · have hbeq : (a.name == b.name) = false := by
          simpa using hn
        simp [Except.toOption, hbeq]
      · simp [Except.toOption]

/-- Insertion produces a permutation of consing. -/
theorem pyInsert_perm (a : ModuleInfo) :
    ∀ l : List ModuleInfo, (pyInsert a l).Perm (a :: l) := by
  intro l
  induction l with
  | nil => exact List.Perm.refl _
  | cons b t ih =>
    by_cases hlt : pyLtB b a
    · simp only [pyInsert, hlt, if_true]
      exact (ih.cons b).trans (List.Perm.swap a b t)
    · simp only [pyInsert, hlt, if_false]
      exact List.Perm.refl _

/-- The modelled sort is a permutation of its input. -/
theorem pySort_perm : ∀ l : List ModuleInfo, (pySort l).Perm l := by
  intro l
  induction l with
  | nil => exact List.Perm.refl _
  | cons a t ih =>
    exact (pyInsert_perm a (pySort t)).trans (ih.cons a)

/-- The larger-or-equal relation the sorted output satisfies: the later
element is not `__lt__`-below the earlier one. -/
def pyLe (a b : ModuleInfo) : Prop := pyLtB b a = false

/-- Inserting into a sorted list keeps it sorted, provided all elements
involved compare pairwise within the first three fields. -/
theorem pyInsert_sorted (S : List ModuleInfo)
    (hdec : ∀ x ∈ S, ∀ y ∈ S, x ≠ y → cmpDecided x y) (a : ModuleInfo)
    (ha : a ∈ S) :
    ∀ l : List ModuleInfo, (∀ x ∈ l, x ∈ S) → l.Pairwise pyLe →
      (pyInsert a l).Pairwise pyLe := by
  intro l
  induction l with
  | nil => intro _ _; simp [pyInsert]
  | cons b t ih =>
    intro hsub hs
    have hbS : b ∈ S := hsub b (by simp)
    have htS : ∀ x ∈ t, x ∈ S := fun x hx => hsub x (by simp [hx])
    have hb : ∀ c ∈ t, pyLe b c := fun c hc =>
      (List.pairwise_cons.mp hs).1 c hc
    have hst : t.Pairwise pyLe := (List.pairwise_cons.mp hs).2
    by_cases hlt : pyLtB b a
    · simp only [pyInsert, hlt, if_true]
      refine List.pairwise_cons.mpr ⟨?_, ih htS hst⟩
      intro c hc
      rcases List.mem_cons.mp ((pyInsert_perm a t).mem_iff.mp hc) with rfl | hct
      · -- le b a from b < a (asymmetry on decided pairs)
        have hab : b ≠ c := by
          rintro rfl
          rw [pyLtB_self] at hlt
          exact Bool.false_ne_true hlt
        have hdecbc := hdec b hbS c ha hab
        have hdeccb := hdec c ha b hbS (fun hh => hab hh.symm)
        unfold pyLe
        rw [pyLtB_eq_keyLt hdeccb]
        rw [pyLtB_eq_keyLt hdecbc] at hlt
        exact keyLt_asymm hlt
      · exact hb c hct
    · simp only [pyInsert, hlt, if_false]
      have hab : pyLe a b := by
        unfold pyLe
        exact Bool.not_eq_true _ ▸ (Bool.of_not_eq_true hlt)
      refine List.pairwise_cons.mpr ⟨?_, hs⟩
      intro c hc
      rcases List.mem_cons.mp hc with rfl | hct
      · exact hab
      · -- le a c via transitivity through b
        by_cases hac : a = c
        · subst hac
          unfold pyLe
          exact pyLtB_self a
        · by_cases habe : a = b
          · subst habe
            exact hb c hct
          · by_cases hbce : b = c
            · subst hbce
              exact hab
            · have hcS : c ∈ S := htS c hct
              have d_ab := hdec a ha b hbS habe
              have d_ba := hdec b hbS a ha (fun hh => habe hh.symm)
              have d_bc := hdec b hbS c hcS hbce
              have d_cb := hdec c hcS b hbS (fun hh => hbce hh.symm)
              have d_ca := hdec c hcS a ha (fun hh => hac hh.symm)
              have hkab : keyLt a b = true := by
                have hba : keyLt b a = false := by
                  rw [← pyLtB_eq_keyLt d_ba]
                  exact Bool.of_not_eq_true hlt
                rcases keyLt_total d_ab with h1 | h1
                · exact h1
                · rw [h1] at hba; exact absurd hba (by simp)
              have hkbc : keyLt b c = true := by
                have hcb : keyLt c b = false := by
                  rw [← pyLtB_eq_keyLt d_cb]
                  exact hb c hct
                rcases keyLt_total d_bc with h1 | h1
                · exact h1
                · rw [h1] at hcb; exact absurd hcb (by simp)
              unfold pyLe
              rw [pyLtB_eq_keyLt d_ca]
              exact keyLt_asymm (keyLt_trans hkab hkbc)

/-- The modelled sort produces a sorted list, provided all elements
compare pairwise within the first three fields. -/
theorem pySort_sorted (S : List ModuleInfo)
    (hdec : ∀ x ∈ S, ∀ y ∈ S, x ≠ y → cmpDecided x y) :
    ∀ l : List ModuleInfo, (∀ x ∈ l, x ∈ S) →
      (pySort l).Pairwise pyLe := by
  intro l
  induction l with
  | nil => intro _; simp [pySort]
  | cons a t ih =>
    intro hsub
    have haS : a ∈ S := hsub a (by simp)
    have htS : ∀ x ∈ t, x ∈ S := fun x hx => hsub x (by simp [hx])
    have hsorted := ih htS
    refine pyInsert_sorted S hdec a haS (pySort t) ?_ hsorted
    intro x hx
    exact htS x ((pySort_perm t).mem_iff.mp hx)

/-- The `pop` / `insert(0, ...)` step of `sort_module_infos`: when exactly
one element satisfies the predicate, the moved-to-front result is that
element consed onto a sublist that the rest permutes to. -/
theorem moveRoot_spec (p : ModuleInfo → Bool) :
    ∀ (L : List ModuleInfo) (root : ModuleInfo), root ∈ L → p root = true →
      (∀ m ∈ L, p m = true → m = root) →
      ∃ L', (match L.findIdx? p with
             | some i =>
               match L.get? i with
               | some m => m :: L.eraseIdx i
               | Option.none => L
             | Option.none => L) = root :: L'
        ∧ L'.Sublist L ∧ (root :: L').Perm L := by
  intro L
  induction L with
  | nil => intro root hmem; cases hmem
  | cons x rest ih =>
    intro root hmem hp huniq
    by_cases hx : p x = true
    · have hxr : x = root := huniq x (by simp) hx
      subst hxr
      refine ⟨rest, ?_, List.sublist_cons_self x rest, List.Perm.refl _⟩
      simp [List.findIdx?_cons, hx]
    · have hxr : root ≠ x := by
        rintro rfl
        exact hx hp
      have hrest : root ∈ rest := by
        rcases List.mem_cons.mp hmem with h1 | h1
        · exact absurd h1 hxr
        · exact h1
      obtain ⟨L'', e'', sub'', perm''⟩ := ih root hrest hp
        (fun m hm hpm => huniq m (by simp [hm]) hpm)
      rcases hj : rest.findIdx? p with _ | j
      · have := List.findIdx?_eq_none_iff.mp hj root hrest
        rw [hp] at this
        exact absurd this (by simp)
      · have hjlen : j < rest.length :=
          (List.findIdx?_eq_some_iff_findIdx_eq.mp hj).1
        rw [hj] at e''
        rcases hg : rest.get? j with _ | m
        · rw [List.get?_eq_none] at hg
          omega
        · simp only [hg] at e''
          have hm : m = root := by
            have := congrArg (fun l => l.head?) e''
            simpa using this
          have hL'' : L'' = rest.eraseIdx j := by
            have := congrArg (fun l => l.tail) e''
            simpa using this.symm
          refine ⟨x :: L'', ?_, ?_, ?_⟩
          · rw [show (x :: rest).findIdx? p = some (j + 1) by
              rw [List.findIdx?_cons, if_neg hx, List.findIdx?_succ, hj]
              rfl]
            simp only [List.get?_cons_succ, List.eraseIdx_cons_succ, hg, hm,
              hL'']
          · rw [hL'']
            exact (rest.eraseIdx_sublist j).cons₂ x
          · refine (List.Perm.swap x root L'').trans ?_
            exact perm''.cons x

/-- C5, amended: home-pinning with the dataclass order.  For every list of
descriptors in which exactly one descriptor has path `/`, provided every
pair of distinct descriptors compares within the first three dataclass
fields (name, description, path — beyond them Python's comparison reaches
unorderable values), `sort_module_infos` puts that descriptor at index 0
regardless of its sort key, and the remaining descriptors appear in
ascending order of the full dataclass field tuple — which refines `(name,
description)`, but breaks `(name, description)` ties by `path` rather than
by input position. -/
theorem c5_home_pinning_amended (l : List ModuleInfo) (root : ModuleInfo)
    (hmem : root ∈ l) (hroot : root.path = some "/")
    (huniq : ∀ m ∈ l, m.path = some "/" → m = root)
    (hdec : ∀ a ∈ l, ∀ b ∈ l, a ≠ b → cmpDecided a b) :
    (sort_module_infos l).head? = some root
      ∧ (sort_module_infos l).Perm l
      ∧ (sort_module_infos l).tail.Pairwise pyLe := by
  have hpm := pySort_perm l
  obtain ⟨L', e, sub, perm⟩ :=
    moveRoot_spec (fun m => decide (m.path = some "/")) (pySort l) root
      (hpm.mem_iff.mpr hmem) (by simp [hroot])
      (fun m hm hpm2 => huniq m (hpm.mem_iff.mp hm) (by simpa using hpm2))
  have hsm : sort_module_infos l = root :: L' := e
  have hsorted : (pySort l).Pairwise pyLe :=
    pySort_sorted l hdec l (fun x hx => hx)
  exact ⟨by rw [hsm]; rfl, by rw [hsm]; exact perm.trans hpm,
    by rw [hsm]; exact hsorted.sublist sub⟩

/-- C5, witness: the amended home-pinning theorem applied to the concrete
list `[R, A, B]`. -/
theorem c5_home_pinning_amended_witness :
    (sort_module_infos [infoR, infoA, infoB]).head? = some infoR
      ∧ (sort_module_infos [infoR, infoA, infoB]).Perm [infoR, infoA, infoB]
      ∧ (sort_module_infos [infoR, infoA, infoB]).tail.Pairwise pyLe :=
  c5_home_pinning_amended [infoR, infoA, infoB] infoR (by decide) (by decide)
    (by decide) (by decide)

/-- Sorting a single descriptor is the identity (whether or not it is the
home page). -/
theorem sort_module_infos_singleton (mi : ModuleInfo) :
    sort_module_infos [mi] = [mi] := by
  by_cases h : mi.path = some "/" <;>
    simp [sort_module_infos, pySort, pyInsert, List.findIdx?_cons, h]

set_option maxHeartbeats 1000000 in
/-- C1, amended: contract-violation isolation for the checked violations.
For any three candidate units — one lacking the entry point, one declaring
a wrong return type (its entry point is never invoked, so its behaviour is
irrelevant), and one well-formed returning the descriptor `mi` — the
production scan completes with exactly that one descriptor and the two
error messages, in scan order, and never aborts; the development scan
aborts the process with the accumulated errors joined by newlines.  (The
original claim's raising unit is the amendment: an entry point that
*raises* aborts the scan in either mode, see the counterexample.) -/
theorem c1_contract_violation_isolation_amended
    (mi : ModuleInfo) (ann1 : String) (inv1 : InvokeResult)
    (ann2 : String) (inv2 : InvokeResult) (hann2 : ann2 ≠ "ModuleInfo") :
    get_module_infos false "an_website" IGNORED_MODULES
        [⟨"example", true,
          [⟨"broken1.py", false, ann1, inv1⟩,
           ⟨"broken2.py", true, ann2, inv2⟩,
           ⟨"good.py", true, "ModuleInfo", .returnsInfo mi⟩]⟩]
      = .completed ⟨["example.good"], [mi],
          [noMethodMsg "an_website" "example" "broken1.py" "example.broken1",
           wrongTypeMsg "an_website" "example" "broken2.py"
             "example.broken2"]⟩
    ∧ get_module_infos true "an_website" IGNORED_MODULES
        [⟨"example", true,
          [⟨"broken1.py", false, ann1, inv1⟩,
           ⟨"broken2.py", true, ann2, inv2⟩,
           ⟨"good.py", true, "ModuleInfo", .returnsInfo mi⟩]⟩]
      = .devExit (String.intercalate "\n"
          [noMethodMsg "an_website" "example" "broken1.py" "example.broken1",
           wrongTypeMsg "an_website" "example" "broken2.py"
             "example.broken2"]) := by
  have hu2 : ∀ acc : LoadResult,
      processFile "an_website" "example" IGNORED_MODULES acc
        ⟨"broken2.py", true, ann2, inv2⟩
      = .ok { acc with errors := acc.errors ++
          [wrongTypeMsg "an_website" "example" "broken2.py"
            "example.broken2"] } := by
    intro acc
    simp only [processFile]
    rw [if_neg (by decide), if_neg (by decide), if_neg hann2]
    rfl
  have hu1 : ∀ acc : LoadResult,
      processFile "an_website" "example" IGNORED_MODULES acc
        ⟨"broken1.py", false, ann1, inv1⟩
      = .ok { acc with errors := acc.errors ++
          [noMethodMsg "an_website" "example" "broken1.py"
            "example.broken1"] } := by
    intro acc
    simp only [processFile]
    rw [if_neg (by decide), if_pos (by decide)]
    rfl
  have hu3 : ∀ acc : LoadResult,
      processFile "an_website" "example" IGNORED_MODULES acc
        ⟨"good.py", true, "ModuleInfo", .returnsInfo mi⟩
      = .ok { acc with
          moduleInfos := acc.moduleInfos ++ [mi],
          loadedModules := acc.loadedModules ++ ["example.good"] } := by
    intro acc
    simp only [processFile]
    rw [if_neg (by decide), if_neg (by decide), if_pos (by decide)]
    rfl
  have hscan : List.foldlM (processDir "an_website" IGNORED_MODULES)
      (⟨[], [], []⟩ : LoadResult)
      [⟨"example", true,
        [⟨"broken1.py", false, ann1, inv1⟩,
         ⟨"broken2.py", true, ann2, inv2⟩,
         ⟨"good.py", true, "ModuleInfo", .returnsInfo mi⟩]⟩]
      = .ok ⟨["example.good"], [mi],
          [noMethodMsg "an_website" "example" "broken1.py" "example.broken1",
           wrongTypeMsg "an_website" "example" "broken2.py"
             "example.broken2"]⟩ := by
    have hbind : ∀ (a : LoadResult) (f : LoadResult → Except String LoadResult),
        (Except.ok a >>= f) = f a := fun a f => rfl
    simp only [List.foldlM, processDir]
    rw [if_neg (by decide)]
    try simp only [List.foldlM]
    rw [hu1, hbind, hu2, hbind, hu3, hbind]
    rfl
  constructor
  · unfold get_module_infos
    rw [hscan]
    simp [sort_module_infos_singleton]
  · unfold get_module_infos
    rw [hscan]
    simp

/-- C1, witness: the amended isolation theorem at a concrete wrong
annotation and invocation behaviour. -/
theorem c1_contract_violation_isolation_amended_witness :
    get_module_infos false "an_website" IGNORED_MODULES
        [⟨"example", true,
          [⟨"broken1.py", false, "", .returnsOther⟩,
           ⟨"broken2.py", true, "int", .returnsOther⟩,
           ⟨"good.py", true, "ModuleInfo", .returnsInfo goodInfo⟩]⟩]
      = .completed ⟨["example.good"], [goodInfo],
          [noMethodMsg "an_website" "example" "broken1.py" "example.broken1",
           wrongTypeMsg "an_website" "example" "broken2.py"
             "example.broken2"]⟩
    ∧ get_module_infos true "an_website" IGNORED_MODULES
        [⟨"example", true,
          [⟨"broken1.py", false, "", .returnsOther⟩,
           ⟨"broken2.py", true, "int", .returnsOther⟩,
           ⟨"good.py", true, "ModuleInfo", .returnsInfo goodInfo⟩]⟩]
      = .devExit (String.intercalate "\n"
          [noMethodMsg "an_website" "example" "broken1.py" "example.broken1",
           wrongTypeMsg "an_website" "example" "broken2.py"
             "example.broken2"]) :=
  c1_contract_violation_isolation_amended goodInfo "" .returnsOther
    "int" .returnsOther (by decide)

/-- `str_to_bool` never rewinds the random cursor. -/
theorem str_to_bool_mono (v : String) (d : Option Bool) (s : Nat → Bool)
    (k : Nat) : k ≤ (str_to_bool v d s k).2 := by
  simp only [str_to_bool]
  split_ifs <;> try simp
  rcases d with _ | b <;> simp

/-- `_parse_bool` never rewinds the random cursor. -/
theorem _parse_bool_mono (data : PyVal) (strict : Bool) (s : Nat → Bool)
    (k : Nat) : k ≤ (_parse_bool data strict s k).2 := by
  rcases data with _ | b | n | q | v | xs | es | ⟨c, fs⟩ <;>
    simp only [_parse_bool] <;>
    try (split_ifs <;> simp)
  · exact le_refl k
  · split_ifs <;> try simp
    rcases hr : (str_to_bool v Option.none s k).1 with e | b <;>
      simpa [hr] using str_to_bool_mono v Option.none s k

/-- `parseListH` never rewinds the random cursor. -/
theorem parseListH_mono (pr : PyRec)
    (hpr : ∀ t v s k, k ≤ (pr t v s k).2) (elem : PyTy) :
    ∀ (xs : List PyVal) (s : Nat → Bool) (k : Nat),
      k ≤ (parseListH pr elem xs s k).2 := by
  intro xs
  induction xs with
  | nil => intro s k; simp [parseListH]
  | cons x t ih =>
    intro s k
    simp only [parseListH]
    rcases hr : (pr elem x s k).1 with e | v
    · simpa [hr] using hpr elem x s k
    · simp only [hr]
      rcases hrr : (parseListH pr elem t s (pr elem x s k).2).1 with e | vs <;>
        simp only [hrr] <;>
        exact le_trans (hpr elem x s k)
          (by simpa [hrr] using ih s (pr elem x s k).2)

/-- `parseFieldsH` never rewinds the random cursor. -/
theorem parseFieldsH_mono (pr : PyRec)
    (hpr : ∀ t v s k, k ≤ (pr t v s k).2) :
    ∀ (ps : List PyParam) (entries : List (String × PyVal)) (strict : Bool)
      (inPos : Bool) (args : List PyVal) (kwargs : List (String × PyVal))
      (s : Nat → Bool) (k : Nat),
      k ≤ (parseFieldsH pr ps entries strict inPos args kwargs s k).2 := by
  intro ps
  induction ps with
  | nil => intro entries strict inPos args kwargs s k; simp [parseFieldsH]
  | cons p t ih =>
    intro entries strict inPos args kwargs s k
    rcases p with ⟨nm, kind, ann, dflt⟩
    rcases hl : entries.lookup nm with _ | value
    · rcases dflt with _ | d
      · simp [parseFieldsH, hl]
      · simp only [parseFieldsH, hl]
        exact ih entries strict _ _ _ s k
    · rcases ann with _ | t2
      · simp only [parseFieldsH, hl]
        split_ifs <;> first | exact ih entries strict _ _ _ s k | simp
      · simp only [parseFieldsH, hl]
        rcases hr : (pr t2 value s k).1 with e | v
        · simpa [hr] using hpr t2 value s k
        · simp only [hr]
          exact le_trans (hpr t2 value s k)
            (ih entries strict _ _ _ s (pr t2 value s k).2)

/-- `parseClassH` never rewinds the random cursor. -/
theorem parseClassH_mono (pr : PyRec)
    (hpr : ∀ t v s k, k ≤ (pr t v s k).2) (clsName : String)
    (ps : List PyParam) (entries : List (String × PyVal)) (strict : Bool)
    (s : Nat → Bool) (k : Nat) :
    k ≤ (parseClassH pr clsName ps entries strict s k).2 := by
  simp only [parseClassH]
  rcases hr : (parseFieldsH pr ps entries strict false [] [] s k).1 with e | p
  · simpa [hr] using parseFieldsH_mono pr hpr ps entries strict false [] [] s k
  · simp only [hr]
    rcases bindParams ps p.1 p.2 with e | fields <;>
      simpa using parseFieldsH_mono pr hpr ps entries strict false [] [] s k

/-- `parseCore` never rewinds the random cursor. -/
theorem parseCore_mono (pr : PyRec)
    (hpr : ∀ t v s k, k ≤ (pr t v s k).2) (ty : PyTy) (data : PyVal)
    (strict : Bool) (s : Nat → Bool) (k : Nat) :
    k ≤ (parseCore pr ty data strict s k).2 := by
  rcases ty with _ | _ | _ | _ | elem | members | ⟨nm, ps⟩
  · exact _parse_bool_mono data strict s k
  · exact le_refl k
  · exact le_refl k
  · exact le_refl k
  · rcases data with _ | b | n | q | v | xs | es | ⟨c, fs⟩
    · exact le_refl k
    · exact le_refl k
    · exact le_refl k
    · exact le_refl k
    · exact le_refl k
    · have h2 : (parseCore pr (.list elem) (.list xs) strict s k).2
          = (parseListH pr elem xs s k).2 := by
        rcases hr : (parseListH pr elem xs s k).1 with e | vs <;>
          simp [parseCore, hr]
      rw [h2]
      exact parseListH_mono pr hpr elem xs s k
    · exact parseClassH_mono pr hpr "list" listInitParams es strict s k
    · exact le_refl k
  · exact le_refl k
  · rcases data with _ | b | n | q | v | xs | es | ⟨c, fs⟩
    · exact le_refl k
    · exact le_refl k
    · exact le_refl k
    · exact le_refl k
    · exact le_refl k
    · exact le_refl k
    · exact parseClassH_mono pr hpr nm ps es strict s k
    · exact le_refl k

/-- `parseUnion` never rewinds the random cursor. -/
theorem parseUnion_mono (pr : PyRec)
    (hpr : ∀ t v s k, k ≤ (pr t v s k).2) (members : List UTy)
    (data : PyVal) (strict : Bool) (s : Nat → Bool) (k : Nat) :
    k ≤ (parseUnion pr members data strict s k).2 := by
  simp only [parseUnion]
  rcases hi : isInstanceUnion data members with e | b
  · simp
  · rcases b with _ | _
    · split_ifs
      · simp
      · rcases hh : (members.filter (fun m => ¬ isNoneValue m)).head? with
          _ | m
        · simp
        · rcases m with _ | t
          · simp
          · exact parseCore_mono pr hpr t data strict s k
    · simp

/-- `parse` never rewinds the random cursor. -/
theorem parse_mono :
    ∀ (fuel : Nat) (ty : PyTy) (data : PyVal) (strict : Bool)
      (s : Nat → Bool) (k : Nat), k ≤ (parse fuel ty data strict s k).2 := by
  intro fuel
  induction fuel with
  | zero => intro ty data strict s k; exact le_refl k
  | succ n ih =>
    intro ty data strict s k
    rcases ty with _ | _ | _ | _ | elem | members | ⟨nm, ps⟩
    · exact parseCore_mono _ (fun t v s k => ih t v strict s k) .bool data
        strict s k
    · exact parseCore_mono _ (fun t v s k => ih t v strict s k) .str data
        strict s k
    · exact parseCore_mono _ (fun t v s k => ih t v strict s k) .int data
        strict s k
    · exact parseCore_mono _ (fun t v s k => ih t v strict s k) .float data
        strict s k
    · exact parseCore_mono _ (fun t v s k => ih t v strict s k) (.list elem)
        data strict s k
    · exact parseUnion_mono _ (fun t v s k => ih t v strict s k) members
        data strict s k
    · exact parseCore_mono _ (fun t v s k => ih t v strict s k) (.cls nm ps)
        data strict s k

/-- If a `str_to_bool` call consumes no randomness, its result is the same
for every stream and cursor. -/
theorem str_to_bool_det0 (v : String) (d : Option Bool) (s : Nat → Bool)
    (k : Nat) (s' : Nat → Bool) (k' : Nat)
    (h : (str_to_bool v d s k).2 = k) :
    (str_to_bool v d s' k').2 = k'
      ∧ (str_to_bool v d s' k').1 = (str_to_bool v d s k).1 := by
  simp only [str_to_bool] at h ⊢
  split_ifs at h ⊢
  · exact ⟨by trivial, by trivial⟩
  · exact ⟨by trivial, by trivial⟩
  · exact absurd (by simpa using h) (Nat.succ_ne_self k)
  · rcases d with _ | b <;> exact ⟨by trivial, by trivial⟩

/-- If a `_parse_bool` call consumes no randomness, its result is the same
for every stream and cursor. -/
theorem _parse_bool_det0 (data : PyVal) (strict : Bool) (s : Nat → Bool)
    (k : Nat) (s' : Nat → Bool) (k' : Nat)
    (h : (_parse_bool data strict s k).2 = k) :
    (_parse_bool data strict s' k').2 = k'
      ∧ (_parse_bool data strict s' k').1 = (_parse_bool data strict s k).1 := by
  rcases data with _ | b | n | q | v | xs | es | ⟨c, fs⟩ <;>
    simp only [_parse_bool] at h ⊢ <;>
    try (split_ifs <;> exact ⟨by trivial, by trivial⟩)
  · exact ⟨by trivial, by trivial⟩
  · split_ifs at h ⊢
    · exact ⟨by trivial, by trivial⟩
    · exact ⟨by trivial, by trivial⟩
    · have hsnd : (str_to_bool v Option.none s k).2 = k := by
        rcases hr : (str_to_bool v Option.none s k).1 with e | b <;>
          simpa [hr] using h
      obtain ⟨h1, h2⟩ := str_to_bool_det0 v Option.none s k s' k' hsnd
      rcases hr : (str_to_bool v Option.none s k).1 with e | b <;>
        rw [hr] at h2 <;> simp only [h2, hr, h1] <;> exact ⟨by trivial, by trivial⟩

/-- If a `parseListH` run consumes no randomness, its result is the same
for every stream and cursor. -/
theorem parseListH_det0 (pr : PyRec)
    (hprM : ∀ t v s k, k ≤ (pr t v s k).2)
    (hprD : ∀ t v s k s' k', (pr t v s k).2 = k →
      (pr t v s' k').2 = k' ∧ (pr t v s' k').1 = (pr t v s k).1)
    (elem : PyTy) :
    ∀ (xs : List PyVal) (s : Nat → Bool) (k : Nat) (s' : Nat → Bool)
      (k' : Nat), (parseListH pr elem xs s k).2 = k →
      (parseListH pr elem xs s' k').2 = k'
        ∧ (parseListH pr elem xs s' k').1 = (parseListH pr elem xs s k).1 := by
  intro xs
  induction xs with
  | nil => intro s k s' k' _; exact ⟨by trivial, by trivial⟩
  | cons x t ih =>
    intro s k s' k' h
    have hr2 : (pr elem x s k).2 = k := by
      rcases hr : (pr elem x s k).1 with e | v
      · simpa [parseListH, hr] using h
      · have h1 := hprM elem x s k
        have h2 := parseListH_mono pr hprM elem t s (pr elem x s k).2
        rcases hrr : (parseListH pr elem t s (pr elem x s k).2).1 with e | vs
        · simp only [parseListH, hr, hrr] at h
          omega
        · simp only [parseListH, hr, hrr] at h
          omega
    obtain ⟨hp1, hp2⟩ := hprD elem x s k s' k' hr2
    rcases hr : (pr elem x s k).1 with e | v
    · rw [hr] at hp2
      simp only [parseListH, hr, hp2, hp1]
      exact ⟨by trivial, by trivial⟩
    · rw [hr] at hp2
      have hrest : (parseListH pr elem t s (pr elem x s k).2).2
          = (pr elem x s k).2 := by
        rw [hr2]
        rcases hrr : (parseListH pr elem t s k).1 with e | vs
        · simpa [parseListH, hr, hr2, hrr] using h
        · simpa [parseListH, hr, hr2, hrr] using h
      rw [hr2] at hrest
      obtain ⟨hq1, hq2⟩ := ih s k s' k' hrest
      simp only [parseListH, hr, hp2, hp1, hq1, hq2, hr2]
      rcases hrr : (parseListH pr elem t s k).1 with e | vs <;>
        exact ⟨by trivial, by trivial⟩

/-- If a `parseFieldsH` run consumes no randomness, its result is the same
for every stream and cursor. -/
theorem parseFieldsH_det0 (pr : PyRec)
    (hprM : ∀ t v s k, k ≤ (pr t v s k).2)
    (hprD : ∀ t v s k s' k', (pr t v s k).2 = k →
      (pr t v s' k').2 = k' ∧ (pr t v s' k').1 = (pr t v s k).1) :
    ∀ (ps : List PyParam) (entries : List (String × PyVal)) (strict : Bool)
      (inPos : Bool) (args : List PyVal) (kwargs : List (String × PyVal))
      (s : Nat → Bool) (k : Nat) (s' : Nat → Bool) (k' : Nat),
      (parseFieldsH pr ps entries strict inPos args kwargs s k).2 = k →
      (parseFieldsH pr ps entries strict inPos args kwargs s' k').2 = k'
        ∧ (parseFieldsH pr ps entries strict inPos args kwargs s' k').1
          = (parseFieldsH pr ps entries strict inPos args kwargs s k).1 := by
  intro ps
  induction ps with
  | nil => intro entries strict inPos args kwargs s k s' k' _
           exact ⟨rfl, rfl⟩
  | cons p t ih =>
    intro entries strict inPos args kwargs s k s' k' h
    rcases p with ⟨nm, kind, ann, dflt⟩
    rcases hl : entries.lookup nm with _ | value
    · rcases dflt with _ | d
      · simp only [parseFieldsH, hl]
        exact ⟨by trivial, by trivial⟩
      · simp only [parseFieldsH, hl] at h ⊢
        exact ih entries strict _ _ _ s k s' k' h
    · rcases ann with _ | t2
      · simp only [parseFieldsH, hl] at h ⊢
        split_ifs at h ⊢ <;>
          first
          | exact ih entries strict _ _ _ s k s' k' h
          | exact ⟨by trivial, by trivial⟩
      · have hr2 : (pr t2 value s k).2 = k := by
          rcases hr : (pr t2 value s k).1 with e | v
          · simpa [parseFieldsH, hl, hr] using h
          · have h1 := hprM t2 value s k
            have h2 := parseFieldsH_mono pr hprM t entries strict
              (inPos || (kind = .varKw || kind = .kwOnly))
              ((if (inPos || (kind = .varKw || kind = .kwOnly)) then
                  (args ++ [v], kwargs) else (args, kwargs ++ [(nm, v)])).1)
              ((if (inPos || (kind = .varKw || kind = .kwOnly)) then
                  (args ++ [v], kwargs) else (args, kwargs ++ [(nm, v)])).2)
              s (pr t2 value s k).2
            simp only [parseFieldsH, hl, hr] at h
            omega
        obtain ⟨hp1, hp2⟩ := hprD t2 value s k s' k' hr2
        rcases hr : (pr t2 value s k).1 with e | v
        · rw [hr] at hp2
          simp only [parseFieldsH, hl, hr, hp2, hp1]
          exact ⟨by trivial, by trivial⟩
        · rw [hr] at hp2
          have hrest : (parseFieldsH pr t entries strict
              (inPos || (kind = .varKw || kind = .kwOnly))
              ((if (inPos || (kind = .varKw || kind = .kwOnly)) then
                  (args ++ [v], kwargs) else (args, kwargs ++ [(nm, v)])).1)
              ((if (inPos || (kind = .varKw || kind = .kwOnly)) then
                  (args ++ [v], kwargs) else (args, kwargs ++ [(nm, v)])).2)
              s k).2 = k := by
            have hx := h
            simp only [parseFieldsH, hl, hr, hr2] at hx
            exact hx
          obtain ⟨hq1, hq2⟩ := ih entries strict _ _ _ s k s' k' hrest
          simp only [parseFieldsH, hl, hr, hp2, hp1, hr2, hq1, hq2]
          exact ⟨by trivial, by trivial⟩

/-- If a `parseClassH` run consumes no randomness, its result is the same
for every stream and cursor. -/
theorem parseClassH_det0 (pr : PyRec)
    (hprM : ∀ t v s k, k ≤ (pr t v s k).2)
    (hprD : ∀ t v s k s' k', (pr t v s k).2 = k →
      (pr t v s' k').2 = k' ∧ (pr t v s' k').1 = (pr t v s k).1)
    (clsName : String) (ps : List PyParam) (entries : List (String × PyVal))
    (strict : Bool) (s : Nat → Bool) (k : Nat) (s' : Nat → Bool) (k' : Nat)
    (h : (parseClassH pr clsName ps entries strict s k).2 = k) :
    (parseClassH pr clsName ps entries strict s' k').2 = k'
      ∧ (parseClassH pr clsName ps entries strict s' k').1
        = (parseClassH pr clsName ps entries strict s k).1 := by
  have hr2 : (parseFieldsH pr ps entries strict false [] [] s k).2 = k := by
    rcases hr : (parseFieldsH pr ps entries strict false [] [] s k).1
      with e | p
    · simpa [parseClassH, hr] using h
    · rcases hb : bindParams ps p.1 p.2 with e | fields <;>
        simpa [parseClassH, hr, hb] using h
  obtain ⟨hp1, hp2⟩ := parseFieldsH_det0 pr hprM hprD ps entries strict
    false [] [] s k s' k' hr2
  rcases hr : (parseFieldsH pr ps entries strict false [] [] s k).1
    with e | p
  · rw [hr] at hp2
    simp only [parseClassH, hr, hp2, hp1]
    exact ⟨by trivial, by trivial⟩
  · rw [hr] at hp2
    simp only [parseClassH, hr, hp2, hp1]
    rcases hb : bindParams ps p.1 p.2 with e | fields <;>
      exact ⟨by trivial, by trivial⟩

/-- If a `parseCore` run consumes no randomness, its result is the same
for every stream and cursor. -/
theorem parseCore_det0 (pr : PyRec)
    (hprM : ∀ t v s k, k ≤ (pr t v s k).2)
    (hprD : ∀ t v s k s' k', (pr t v s k).2 = k →
      (pr t v s' k').2 = k' ∧ (pr t v s' k').1 = (pr t v s k).1)
    (ty : PyTy) (data : PyVal) (strict : Bool) (s : Nat → Bool) (k : Nat)
    (s' : Nat → Bool) (k' : Nat)
    (h : (parseCore pr ty data strict s k).2 = k) :
    (parseCore pr ty data strict s' k').2 = k'
      ∧ (parseCore pr ty data strict s' k').1
        = (parseCore pr ty data strict s k).1 := by
  rcases ty with _ | _ | _ | _ | elem | members | ⟨nm, ps⟩
  · exact _parse_bool_det0 data strict s k s' k' h
  · exact ⟨rfl, rfl⟩
  · exact ⟨rfl, rfl⟩
  · exact ⟨rfl, rfl⟩
  · rcases data with _ | b | n | q | v | xs | es | ⟨c, fs⟩
    · exact ⟨rfl, rfl⟩
    · exact ⟨rfl, rfl⟩
    · exact ⟨rfl, rfl⟩
    · exact ⟨rfl, rfl⟩
    · exact ⟨rfl, rfl⟩
    · have hr2 : (parseListH pr elem xs s k).2 = k := by
        rcases hr : (parseListH pr elem xs s k).1 with e | vs <;>
          simpa [parseCore, hr] using h
      obtain ⟨hp1, hp2⟩ := parseListH_det0 pr hprM hprD elem xs s k s' k' hr2
      rcases hr : (parseListH pr elem xs s k).1 with e | vs <;>
        rw [hr] at hp2 <;>
        simp only [parseCore, hr, hp2, hp1] <;>
        exact ⟨by trivial, by trivial⟩
    · exact parseClassH_det0 pr hprM hprD "list" listInitParams es strict
        s k s' k' h
    · exact ⟨rfl, rfl⟩
  · exact ⟨rfl, rfl⟩
  · rcases data with _ | b | n | q | v | xs | es | ⟨c, fs⟩
    · exact ⟨rfl, rfl⟩
    · exact ⟨rfl, rfl⟩
    · exact ⟨rfl, rfl⟩
    · exact ⟨rfl, rfl⟩
    · exact ⟨rfl, rfl⟩
    · exact ⟨rfl, rfl⟩
    · exact parseClassH_det0 pr hprM hprD nm ps es strict s k s' k' h
    · exact ⟨rfl, rfl⟩

/-- If a `parseUnion` run consumes no randomness, its result is the same
for every stream and cursor. -/
theorem parseUnion_det0 (pr : PyRec)
    (hprM : ∀ t v s k, k ≤ (pr t v s k).2)
    (hprD : ∀ t v s k s' k', (pr t v s k).2 = k →
      (pr t v s' k').2 = k' ∧ (pr t v s' k').1 = (pr t v s k).1)
    (members : List UTy) (data : PyVal) (strict : Bool) (s : Nat → Bool)
    (k : Nat) (s' : Nat → Bool) (k' : Nat)
    (h : (parseUnion pr members data strict s k).2 = k) :
    (parseUnion pr members data strict s' k').2 = k'
      ∧ (parseUnion pr members data strict s' k').1
        = (parseUnion pr members data strict s k).1 := by
  simp only [parseUnion] at h ⊢
  rcases hi : isInstanceUnion data members with e | b
  · exact ⟨by trivial, by trivial⟩
  · rcases b with _ | _
    · rw [hi] at h
      split_ifs at h ⊢
      · exact ⟨by trivial, by trivial⟩
      · rcases hh : (members.filter (fun m => ¬ isNoneValue m)).head? with
          _ | m
        · exact ⟨by trivial, by trivial⟩
        · rcases m with _ | t2
          · exact ⟨by trivial, by trivial⟩
          · rw [hh] at h
            exact parseCore_det0 pr hprM hprD t2 data strict s k s' k' h
    · exact ⟨by trivial, by trivial⟩

/-- If a `parse` run consumes no randomness, its result is the same for
every stream and cursor. -/
theorem parse_det0 :
    ∀ (fuel : Nat) (ty : PyTy) (data : PyVal) (strict : Bool)
      (s : Nat → Bool) (k : Nat) (s' : Nat → Bool) (k' : Nat),
      (parse fuel ty data strict s k).2 = k →
      (parse fuel ty data strict s' k').2 = k'
        ∧ (parse fuel ty data strict s' k').1
          = (parse fuel ty data strict s k).1 := by
  intro fuel
  induction fuel with
  | zero => intro ty data strict s k s' k' _; exact ⟨rfl, rfl⟩
  | succ n ih =>
    intro ty data strict s k s' k' h
    have hM : ∀ t v s k, k ≤ ((fun t v s k => parse n t v strict s k)
        t v s k).2 := fun t v s k => parse_mono n t v strict s k
    have hD : ∀ t v s k s' k', ((fun t v s k => parse n t v strict s k)
          t v s k).2 = k →
        ((fun t v s k => parse n t v strict s k) t v s' k').2 = k'
          ∧ ((fun t v s k => parse n t v strict s k) t v s' k').1
            = ((fun t v s k => parse n t v strict s k) t v s k).1 :=
      fun t v s k s' k' hh => ih t v strict s k s' k' hh
    rcases ty with _ | _ | _ | _ | elem | members | ⟨nm, ps⟩
    · exact parseCore_det0 _ hM hD .bool data strict s k s' k' h
    · exact parseCore_det0 _ hM hD .str data strict s k s' k' h
    · exact parseCore_det0 _ hM hD .int data strict s k s' k' h
    · exact parseCore_det0 _ hM hD .float data strict s k s' k' h
    · exact parseCore_det0 _ hM hD (.list elem) data strict s k s' k' h
    · exact parseUnion_det0 _ hM hD members data strict s k s' k' h
    · exact parseCore_det0 _ hM hD (.cls nm ps) data strict s k s' k' h

/-- C2, amended: the structural parser is deterministic except for the
random truth-vocabulary.  `str_to_bool` maps `maybe` / `idc` to
`random.choice((True, False))`, so `parse` is not a pure function of its
arguments (see the counterexample); but whenever an invocation consumes no
random draw — every target shape, raw value and strict flag whose
evaluation avoids the `maybe`/`idc` string-to-bool branch — re-invocation
under any other random stream and cursor yields the identical result and
consumes no randomness either. -/
theorem c2_parse_deterministic_amended (fuel : Nat) (ty : PyTy)
    (data : PyVal) (strict : Bool) (s : Nat → Bool) (k : Nat)
    (s' : Nat → Bool) (k' : Nat)
    (h : (parse fuel ty data strict s k).2 = k) :
    (parse fuel ty data strict s' k').1 = (parse fuel ty data strict s k).1
      ∧ (parse fuel ty data strict s' k').2 = k' :=
  ⟨(parse_det0 fuel ty data strict s k s' k' h).2,
   (parse_det0 fuel ty data strict s k s' k' h).1⟩

/-- C2, witness: a draw-free parse (`"7"` as `int`) evaluated under two
different random streams and cursors gives the same value. -/
theorem c2_parse_deterministic_amended_witness :
    (parse 3 .int (.str "7") false (fun _ => true) 0).2 = 0
      ∧ ((parse 3 .int (.str "7") false (fun _ => false) 5).1
            = (parse 3 .int (.str "7") false (fun _ => true) 0).1
          ∧ (parse 3 .int (.str "7") false (fun _ => false) 5).2 = 5) :=
  ⟨rfl, c2_parse_deterministic_amended 3 .int (.str "7") false
    (fun _ => true) 0 (fun _ => false) 5 rfl⟩
